import Mathlib

/-!
Shallow embedding of the delta-synchronization core of the storiedbc-db
repository (src/utils/parsers.py, src/utils/ops_mongo.py,
src/utils/transform_for_aura.py), together with theorems settling the
frozen claims about it.

Modelling conventions:
- Python dicts are association lists `Doc := List (String × Value)` in
  insertion order; Python dicts have unique keys, which appears as a
  `NodupKeys` hypothesis where it matters.
- `doc[k]` (raising `KeyError`) is `dget : Doc → String → Option Value`;
  `doc.get(k)` (returning `None` when absent) is `pyGet`, which collapses
  "absent" and "value None" to `Value.vNull`, exactly like Python.
- Functions that can raise return `Option`; `none` is the raised exception.
- `bson.ObjectId` is `Value.vOid n`; the generator `ObjectId()` is modelled
  by a mint counter threaded through `find_deltas` (the n-th generated
  identifier is `vOid n` for a caller-chosen starting counter).
- `hashlib.sha1(json.dumps(safe_value(doc), sort_keys=True))` is modelled by
  the canonical form of the document: `safe_value` (ObjectId → str, applied
  recursively) followed by recursive key-sorting, which is exactly the
  information the dumped string carries.  SHA-1 itself is a fixed
  deterministic function of that string, so equality of canonical forms
  coincides with equality of digests (collision-free idealization of the
  digest).
-/

namespace Storied

/-- Values stored in documents: the subset of BSON/JSON shapes the claims
touch (null, bool, int, str, ObjectId, arrays, sub-documents). -/
inductive Value where
  | vNull
  | vBool (b : Bool)
  | vInt (n : Int)
  | vStr (s : String)
  | vOid (n : Nat)
  | vList (vs : List Value)
  | vObj (fields : List (String × Value))

namespace Value

mutual

/-- Boolean structural equality on values (used to build decidable
equality; Lean cannot derive it for this nested inductive). -/
def vbeq : Value → Value → Bool
  | .vNull, .vNull => true
  | .vBool a, .vBool b => a == b
  | .vInt a, .vInt b => a == b
  | .vStr a, .vStr b => a == b
  | .vOid a, .vOid b => a == b
  | .vList as, .vList bs => vbeqList as bs
  | .vObj as, .vObj bs => vbeqFields as bs
  | _, _ => false

def vbeqList : List Value → List Value → Bool
  | [], [] => true
  | a :: as, b :: bs => vbeq a b && vbeqList as bs
  | _, _ => false

def vbeqFields : List (String × Value) → List (String × Value) → Bool
  | [], [] => true
  | (k1, v1) :: as, (k2, v2) :: bs => k1 == k2 && vbeq v1 v2 && vbeqFields as bs
  | _, _ => false

end

/-- Strong induction over values, descending through lists and
sub-documents. -/
def strongInduction (P : Value → Prop)
    (hNull : P .vNull)
    (hBool : ∀ b, P (.vBool b))
    (hInt : ∀ n, P (.vInt n))
    (hStr : ∀ s, P (.vStr s))
    (hOid : ∀ n, P (.vOid n))
    (hList : ∀ vs, (∀ v ∈ vs, P v) → P (.vList vs))
    (hObj : ∀ fs, (∀ kv ∈ fs, P kv.2) → P (.vObj fs)) :
    ∀ v, P v
  | .vNull => hNull
  | .vBool b => hBool b
  | .vInt n => hInt n
  | .vStr s => hStr s
  | .vOid n => hOid n
  | .vList vs => hList vs (fun v hv =>
      have : sizeOf v < 1 + sizeOf vs := by
        have := List.sizeOf_lt_of_mem hv
        omega
      strongInduction P hNull hBool hInt hStr hOid hList hObj v)
  | .vObj fs => hObj fs (fun kv hkv =>
      have : sizeOf kv.2 < 1 + sizeOf fs := by
        have h2 := List.sizeOf_lt_of_mem hkv
        obtain ⟨k, v⟩ := kv
        simp only [Prod.mk.sizeOf_spec] at *
        omega
      strongInduction P hNull hBool hInt hStr hOid hList hObj kv.2)
termination_by v => sizeOf v

instance : DecidableEq Value := fun a b =>
  decidable_of_iff (vbeq a b = true) (by
    revert b
    induction a using strongInduction with
    | hNull => intro b; cases b <;> simp [vbeq]
    | hBool x => intro b; cases b <;> simp [vbeq]
    | hInt x => intro b; cases b <;> simp [vbeq]
    | hStr x => intro b; cases b <;> simp [vbeq]
    | hOid x => intro b; cases b <;> simp [vbeq]
    | hList vs ih =>
      intro b
      cases b <;> simp [vbeq]
      case vList bs =>
        induction vs generalizing bs with
        | nil => cases bs <;> simp [vbeqList]
        | cons a as ihl =>
          cases bs with
          | nil => simp [vbeqList]
          | cons b bs2 =>
            simp only [vbeqList, Bool.and_eq_true, List.cons.injEq]
            constructor
            · rintro ⟨h1, h2⟩
              exact ⟨(ih a (by simp) b).mp h1,
                (ihl (fun v hv => ih v (by simp [hv])) bs2).mp h2⟩
            · rintro ⟨h1, h2⟩
              exact ⟨(ih a (by simp) b).mpr h1,
                (ihl (fun v hv => ih v (by simp [hv])) bs2).mpr h2⟩
    | hObj fs ih =>
      intro b
      cases b <;> simp [vbeq]
      case vObj bs =>
        induction fs generalizing bs with
        | nil => cases bs <;> simp [vbeqFields]
        | cons a as ihl =>
          cases bs with
          | nil => simp [vbeqFields]
          | cons b bs2 =>
            obtain ⟨k1, v1⟩ := a
            obtain ⟨k2, v2⟩ := b
            simp only [vbeqFields, Bool.and_eq_true, List.cons.injEq,
              Prod.mk.injEq, beq_iff_eq]
            constructor
            · rintro ⟨⟨h0, h1⟩, h2⟩
              exact ⟨⟨h0, (ih (k1, v1) (by simp) v2).mp h1⟩,
                (ihl (fun kv hkv => ih kv (by simp [hkv])) bs2).mp h2⟩
            · rintro ⟨⟨h0, h1⟩, h2⟩
              exact ⟨⟨h0, (ih (k1, v1) (by simp) v2).mpr h1⟩,
                (ihl (fun kv hkv => ih kv (by simp [hkv])) bs2).mpr h2⟩)

end Value

/-- A document: a Python dict in insertion order. -/
abbrev Doc := List (String × Value)

/-- Keys of a document. -/
def dkeys (d : Doc) : List String := d.map Prod.fst

/-- Python dicts have unique keys. -/
def NodupKeys (d : Doc) : Prop := (dkeys d).Nodup

/-- Subscript access `doc[k]`: `none` models the raised `KeyError`. -/
def dget (d : Doc) (k : String) : Option Value :=
  (d.find? (fun kv => kv.1 == k)).map Prod.snd

/-- Method access `doc.get(k)`: Python returns `None` when the key is
absent, so absent and explicit-null collapse to `vNull`. -/
def pyGet (d : Doc) (k : String) : Value :=
  (dget d k).getD .vNull

/-- Assignment `doc[k] = v`: replace in place when the key exists
(position preserved), append otherwise. -/
def dset (d : Doc) (k : String) (v : Value) : Doc :=
  if (d.find? (fun kv => kv.1 == k)).isSome then
    d.map (fun kv => if kv.1 == k then (k, v) else kv)
  else
    d ++ [(k, v)]

/-- Lexicographic comparison of character lists by code point: the string
order Python uses when json.dumps sorts keys. -/
def charListLe : List Char → List Char → Bool
  | [], _ => true
  | _ :: _, [] => false
  | a :: as, b :: bs =>
    if a < b then true else if b < a then false else charListLe as bs

/-- String comparison by code points. -/
def strLe (a b : String) : Bool := charListLe a.toList b.toList

/-- Key ordering used when serializing with sorted keys. -/
def keyle (a b : String × Value) : Prop := strLe a.1 b.1 = true

instance : DecidableRel keyle := fun a b => instDecidableEqBool (strLe a.1 b.1) true

/-- Sort document fields by key, as json.dumps(..., sort_keys=True) does. -/
def sortFields (fs : List (String × Value)) : List (String × Value) :=
  fs.insertionSort keyle

/-- Rendering of an ObjectId as a string, as safe_value's str(ObjectId) does
(the exact alphabet of the rendering is irrelevant; it only needs to be a
fixed injective function of the identifier). -/
def oidString (n : Nat) : String := "oid" ++ toString n

mutual

/-- Canonical form of a value: models `json.dumps(safe_value v,
sort_keys=True)` from parsers.py — ObjectIds become strings and object keys
are sorted at every level.  Two values get the same SHA-1 digest in the
source exactly when they have the same canonical form (idealizing the
digest as collision-free). -/
def canonValue : Value → Value
  | .vNull => .vNull
  | .vBool b => .vBool b
  | .vInt n => .vInt n
  | .vStr s => .vStr s
  | .vOid n => .vStr (oidString n)
  | .vList vs => .vList (canonList vs)
  | .vObj fs => .vObj (sortFields (canonFields fs))

def canonList : List Value → List Value
  | [] => []
  | v :: vs => canonValue v :: canonList vs

def canonFields : List (String × Value) → List (String × Value)
  | [] => []
  | (k, v) :: fs => (k, canonValue v) :: canonFields fs

end

/-- hash_doc from parsers.py: `sha1(json.dumps(safe_value(doc),
sort_keys=True)).hexdigest()`, modelled by the canonical form of the
document (see canonValue). -/
def hash_doc (doc : Doc) : Value := canonValue (.vObj doc)

/-- Keys excluded from hashing and field-level change detection
(`ignore_keys` in add_hashes and find_deltas). -/
def ignore_keys : List String := ["_id", "full_hash", "id_hash", "updated_at"]

/-- The `full_data` comprehension in add_hashes: all fields outside the
bookkeeping keys. -/
def full_data_of (doc : Doc) : Doc :=
  doc.filter (fun kv => decide (kv.1 ∉ ignore_keys))

/-- The `identity_data` comprehension `{k: full_data[k] for k in id_fields}`:
`none` is the KeyError raised when an identity field is absent from
full_data.  (For an empty id_fields list the source short-circuits to `{}`,
which coincides with mapping over the empty list.) -/
def identity_data_of (doc_full : Doc) (id_fields : List String) : Option Doc :=
  id_fields.mapM (fun k => (dget doc_full k).map (fun v => (k, v)))

/-- Loop body of add_hashes for a single document. -/
def add_hashes_one (doc : Doc) (id_fields : List String) : Option Doc := do
  let full_data := full_data_of doc
  let identity_data ← identity_data_of full_data id_fields
  some (dset (dset doc "full_hash" (hash_doc full_data))
    "id_hash" (hash_doc identity_data))

/-- add_hashes from parsers.py: fingerprint every document with a content
hash (full_hash) and an identity hash (id_hash), and also return the two
hash column lists.  `none` models the KeyError escaping the call. -/
def add_hashes (documents : List Doc) (id_fields : List String) :
    Option (List Doc × List Value × List Value) := do
  let mod_docs ← documents.mapM (fun doc => add_hashes_one doc id_fields)
  let id_hashes ← mod_docs.mapM (fun d => dget d "id_hash")
  let full_hashes ← mod_docs.mapM (fun d => dget d "full_hash")
  some (mod_docs, id_hashes, full_hashes)

/-- The diff dictionary returned by find_deltas. -/
structure DeltaDiff where
  dnew : List Doc
  dupdated : List Doc
  dunchanged : List Doc
  ddeleted : List Doc
deriving DecidableEq

/-- Internal state of the two find_deltas loops: accumulators for to_upsert
and the four diff buckets, the matched_new_hashes set (a list, membership is
what matters), and the ObjectId mint counter. -/
structure DeltaState where
  to_upsert : List Doc
  dnew : List Doc
  dupdated : List Doc
  dunchanged : List Doc
  ddeleted : List Doc
  matched : List Value
  counter : Nat
deriving DecidableEq

/-- The `new_lookup` dict comprehension `{doc["id_hash"]: doc for doc in
new_documents}`: `none` is the KeyError when a new document lacks id_hash.
Kept as the pair list; dict lookup takes the LAST binding of a key, as the
comprehension overwrites earlier entries. -/
def new_lookup (new_documents : List Doc) : Option (List (Value × Doc)) :=
  new_documents.mapM (fun d => (dget d "id_hash").map (fun h => (h, d)))

/-- Dict lookup in new_lookup (`new_lookup.get(id_hash)`): the last binding
wins. -/
def lookupLast (l : List (Value × Doc)) (h : Value) : Option Doc :=
  (l.reverse.find? (fun p => decide (p.1 = h))).map Prod.snd

/-- Field-level change detail for the updated bucket: symmetric union of
keys outside ignore_keys whose values differ (`.get` semantics on both
sides).  Python iterates a set here in unspecified order; we fix the
first-occurrence order of the union, which is one admissible order. -/
def computeChanges (old_doc new_doc : Doc) : List (String × Value) :=
  ((dkeys old_doc ++ dkeys new_doc).dedup).filterMap (fun k =>
    if k ∈ ignore_keys then none
    else
      let old_val := pyGet old_doc k
      let new_val := pyGet new_doc k
      if old_val = new_val then none
      else some (k, .vObj [("from", old_val), ("to", new_val)]))

/-- Body of the first find_deltas loop (`for old_doc in old_documents`):
deleted / unchanged / updated classification of one stored document.
`none` models the KeyError on a missing id_hash or _id. -/
def stepOld (lookup : List (Value × Doc)) (st : DeltaState) (old_doc : Doc) :
    Option DeltaState :=
  match dget old_doc "id_hash" with
  | none => none
  | some id_hash =>
    match lookupLast lookup id_hash with
    | none => some { st with ddeleted := st.ddeleted ++ [old_doc] }
    | some new_doc =>
      let st1 := { st with matched := st.matched ++ [id_hash] }
      if pyGet old_doc "full_hash" = pyGet new_doc "full_hash" then
        some { st1 with dunchanged := st1.dunchanged ++ [old_doc] }
      else
        match dget old_doc "_id" with
        | none => none
        | some old_id =>
          let changes := computeChanges old_doc new_doc
          let clean_new := new_doc.filter (fun kv => kv.1 != "_id")
          let updated_doc : Doc := ("_id", old_id) :: clean_new
          some { st1 with
            to_upsert := st1.to_upsert ++ [updated_doc],
            dupdated := st1.dupdated ++
              [[("_id", old_id), ("id_hash", id_hash),
                ("changes", .vObj changes)]] }

/-- Body of the second find_deltas loop (`for new_doc in new_documents`):
append a new entry for every unmatched identity hash.  The entry is
`{"_id": ObjectId(), **new_doc}`: the minted ObjectId sits first but is
OVERWRITTEN by new_doc's own _id when the new document already carries one
(dict-merge semantics: later keys win, position of the first is kept).  One
identifier is minted per new entry regardless. -/
def stepNew (st : DeltaState) (new_doc : Doc) : Option DeltaState :=
  match dget new_doc "id_hash" with
  | none => none
  | some id_hash =>
    if id_hash ∈ st.matched then some st
    else
      let new_entry : Doc :=
        ("_id", (dget new_doc "_id").getD (.vOid st.counter)) ::
          new_doc.filter (fun kv => kv.1 != "_id")
      some { st with
        to_upsert := st.to_upsert ++ [new_entry],
        dnew := st.dnew ++ [new_entry],
        counter := st.counter + 1 }

/-- Initial loop state. -/
def initState (counter0 : Nat) : DeltaState :=
  { to_upsert := [], dnew := [], dupdated := [], dunchanged := [],
    ddeleted := [], matched := [], counter := counter0 }

/-- find_deltas from parsers.py: classify (old snapshot, new snapshot) into
new / updated / unchanged / deleted by identity hash, and collect the
documents to upsert.  `counter0` seeds the ObjectId mint (the n-th minted
identifier is `vOid (counter0 + n)`).  `none` models an escaping
KeyError. -/
def find_deltas (old_documents new_documents : List Doc) (counter0 : Nat) :
    Option (List Doc × DeltaDiff) := do
  let lookup ← new_lookup new_documents
  let st1 ← old_documents.foldlM (stepOld lookup) (initState counter0)
  let st2 ← new_documents.foldlM stepNew st1
  some (st2.to_upsert, ⟨st2.dnew, st2.dupdated, st2.dunchanged, st2.ddeleted⟩)

/-! ### Subdocument decoder (make_subdocuments) -/

/-- Characters split into groups by a one-character separator, with Python
str.split semantics: "" gives [""]; separators at the ends give empty
groups.  (Every call site of make_subdocuments passes a one-character
separator.) -/
def splitChars (c : Char) : List Char → List (List Char)
  | [] => [[]]
  | x :: xs =>
    match splitChars c xs with
    | [] => [[]]
    | g :: gs => if x = c then [] :: g :: gs else (x :: g) :: gs

/-- Python str.split with a one-character separator. -/
def pySplit (s : String) (sep : Char) : List String :=
  (splitChars sep s.toList).map List.asString

/-- Python str.strip(): drop whitespace from both ends. -/
def pyStrip (s : String) : String :=
  (((s.toList.dropWhile Char.isWhitespace).reverse.dropWhile
    Char.isWhitespace).reverse).asString

/-- One subdoc_registry entry: an optional match pattern (a compiled regex,
modelled as a function from an entry string to an optional match object of
type M) and the decode function, which receives the match object when a
pattern is configured and the raw entry string otherwise.  The registry
itself is `String → Option (SubdocConfig M R)`, modelling registry.get;
the source's callable(transform) check always holds here. -/
structure SubdocConfig (M R : Type) where
  pattern : Option (String → Option M)
  transform : M ⊕ String → R

/-- The trimmed non-empty entries of the input string:
`[entry.strip() for entry in string.split(separator) if entry.strip()]`. -/
def subdocEntries (string : String) (separator : Char) : List String :=
  ((pySplit string separator).map pyStrip).filter (fun t => t ≠ "")

/-- make_subdocuments from parsers.py: split, trim, drop empties; when the
registry entry has a pattern, keep exactly the entries the pattern matches
(a failed match only logs a warning) and decode the match objects; without
a pattern, decode every raw entry.  Missing or invalid registry config logs
an error and yields []. -/
def make_subdocuments {M R : Type} (string : String) (field_key : String)
    (registry : String → Option (SubdocConfig M R))
    (separator : Char := ';') : List R :=
  if string = "" then []
  else
    match registry field_key with
    | none => []
    | some config =>
      let entries := subdocEntries string separator
      match config.pattern with
      | some pattern =>
        entries.filterMap (fun entry =>
          (pattern entry).map (fun m => config.transform (Sum.inl m)))
      | none => entries.map (fun entry => config.transform (Sum.inr entry))

/-! ### Reading-log aggregation (process_ur from transform_for_aura.py)

Reading-log timestamps are ISO-format strings in the source, compared by
Python's total string order, which agrees with chronological order on that
format; we model a timestamp as a natural number.  Numeric fields (rating,
days_to_read, pages_per_day, hours_per_day) are modelled as rationals so
that averages are exact; `none` is Python None/absent. -/

/-- One decoded reading-log event. -/
structure RLog where
  timestamp : Nat
  rstatus : String
deriving DecidableEq

/-- One user_reads record, restricted to the fields process_ur touches. -/
structure URead where
  user_id : Nat
  version_id : Nat
  reading_log : Option (List RLog)
  notes : Option String
  rating : Option ℚ
  days_to_read : Option ℚ
  pages_per_day : Option ℚ
  hours_per_day : Option ℚ
deriving DecidableEq

/-- One aggregate row of process_ur's output. -/
structure AggUR where
  user_id : Nat
  version_id : Nat
  most_recent_rstatus : String
  most_recent_start : Option Nat
  most_recent_read : Option Nat
  most_recent_review : Option String
  read_count : Nat
  avg_rating : Option ℚ
  avg_days_to_read : Option ℚ
  avg_read_rate : Option ℚ
deriving DecidableEq

/-- The status priority table `{"Read": 3, "Reading": 2, "Paused": 1,
"To Read": 0}` with `.get(..., -1)` for unknown statuses. -/
def rstatus_priority (s : String) : Int :=
  if s = "Read" then 3
  else if s = "Reading" then 2
  else if s = "Paused" then 1
  else if s = "To Read" then 0
  else -1

/-- Sort key of the most-recent-event maximum: (timestamp, priority). -/
def rlogKey (x : RLog) : Nat × Int := (x.timestamp, rstatus_priority x.rstatus)

/-- Strict lexicographic comparison of (timestamp, priority) keys: Python
tuple `<`. -/
def keyLtB (a b : Nat × Int) : Bool :=
  a.1 < b.1 || (a.1 == b.1 && a.2 < b.2)

/-- Python max over a nonempty list with a key function: keep the current
maximum, replace only on strictly greater key (first maximum wins). -/
def pyMaxBy {α β : Type} (key : α → β) (lt : β → β → Bool)
    (x0 : α) (rest : List α) : α :=
  rest.foldl (fun m x => if lt (key m) (key x) then x else m) x0

/-- Truthiness filter for a numeric field: present and non-zero. -/
def truthyQ (o : Option ℚ) : Option ℚ :=
  o.bind (fun q => if q = 0 then none else some q)

/-- The rate appended for one entry: pages_per_day when present and
truthy, else hours_per_day when present and truthy, else nothing. -/
def rateOf (e : URead) : Option ℚ :=
  match truthyQ e.pages_per_day with
  | some p => some p
  | none => truthyQ e.hours_per_day

/-- Flatten the reading logs of a group of entries (`if "reading_log" in e
and e["reading_log"]: logs.extend(...)`; skipping falsy values coincides
with extending by the empty list). -/
def flatLogs (entries : List URead) : List RLog :=
  entries.foldr (fun e acc => (e.reading_log.getD []) ++ acc) []

/-- The body of process_ur's per-(user, version) aggregation: most recent
status by (timestamp, priority) max, most recent start/read timestamps,
read count, first review, and the three averages. -/
def agg_entries (u_id v_id : Nat) (entries : List URead) : AggUR :=
  let logs := flatLogs entries
  let stats :=
    match logs with
    | [] => ("To Read", (none : Option Nat), (none : Option Nat), 0)
    | l0 :: rest =>
      let most_recent_event := pyMaxBy rlogKey keyLtB l0 rest
      let reading_events := logs.filter (fun l : RLog => l.rstatus == "Reading")
      let most_recent_start :=
        match reading_events with
        | [] => none
        | r0 :: rrest =>
          some (pyMaxBy (fun l : RLog => l.timestamp)
            (fun a b => a < b) r0 rrest).timestamp
      let read_events := logs.filter (fun l : RLog => l.rstatus == "Read")
      let most_recent_read :=
        match read_events with
        | [] => none
        | r0 :: rrest =>
          some (pyMaxBy (fun l : RLog => l.timestamp)
            (fun a b => a < b) r0 rrest).timestamp
      (most_recent_event.rstatus, most_recent_start, most_recent_read,
        read_events.length)
  let most_recent_review := (entries.mapM (fun e : URead => e.notes)).bind List.head?
  let ratings := entries.filterMap (fun e => e.rating)
  let avg_rating :=
    if ratings.isEmpty then none else some (ratings.sum / ratings.length)
  let d2r := entries.filterMap (fun e => truthyQ e.days_to_read)
  let avg_days_to_read :=
    if d2r.isEmpty then none else some (d2r.sum / d2r.length)
  let rates := entries.filterMap rateOf
  let avg_read_rate :=
    if rates.isEmpty then none else some (rates.sum / rates.length)
  { user_id := u_id, version_id := v_id,
    most_recent_rstatus := stats.1,
    most_recent_start := stats.2.1,
    most_recent_read := stats.2.2.1,
    most_recent_review := most_recent_review,
    read_count := stats.2.2.2,
    avg_rating := avg_rating,
    avg_days_to_read := avg_days_to_read,
    avg_read_rate := avg_read_rate }

/-- process_ur from transform_for_aura.py: aggregate the reading entries of
every (user, version) pair that has at least one entry.  The source
iterates Python sets of ids in unspecified order; we fix first-occurrence
order, one admissible order (no claim depends on the output order). -/
def process_ur (user_reads : List URead) : List AggUR :=
  let user_ids := (user_reads.map (fun e => e.user_id)).dedup
  let version_ids := (user_reads.map (fun e => e.version_id)).dedup
  user_ids.flatMap (fun u_id =>
    version_ids.filterMap (fun v_id =>
      let entries := user_reads.filter
        (fun e => e.user_id == u_id && e.version_id == v_id)
      if entries.isEmpty then none
      else some (agg_entries u_id v_id entries)))

/-! ### Mongo operations (ops_mongo.py) -/

/-- The document store: collection name → documents in insertion order. -/
def DBState := String → List Doc

/-- Parse the string rendering of an ObjectId back (bson.ObjectId(str);
`none` is the InvalidId exception for a non-ObjectId string). -/
def parseOid (s : String) : Option Nat :=
  if s.startsWith "oid" then (s.drop 3).toNat? else none

/-- Mongo equality filter: the document matches when every field of the
query is present with the queried value. -/
def matchesQuery (d : Doc) (query : Doc) : Bool :=
  query.all (fun kv => decide (dget d kv.1 = some kv.2))

/-- collection.find_one(query): first matching document. -/
def find_one (coll : List Doc) (query : Doc) : Option Doc :=
  coll.find? (fun d => matchesQuery d query)

/-- collection.insert_one: append the document. -/
def dbInsert (db : DBState) (coll : String) (doc : Doc) : DBState :=
  fun n => if n = coll then db n ++ [doc] else db n

/-- collection.delete_one(query): remove the first matching document;
also report the deleted_count. -/
def dbDeleteOne (db : DBState) (coll : String) (query : Doc) :
    DBState × Nat :=
  match find_one (db coll) query with
  | none => (db, 0)
  | some d =>
    (fun n => if n = coll then (db coll).erase d else db n, 1)

/-- Python dict.update semantics used to build the archived document:
existing keys are overwritten in place, new keys are appended. -/
def pyUpdate (d : Doc) (additions : Doc) : Doc :=
  additions.foldl (fun acc kv => dset acc kv.1 kv.2) d

/-- Result dictionary of archive_delete (the union of the fields the three
return sites produce). -/
structure ADResult where
  deleted : Bool
  archived : Bool
  archived_id : Option Value
  original_id : Option Value
  reason : Option String
  err : Option String
deriving DecidableEq

/-- archive_delete from ops_mongo.py.  `mint` is the ObjectId generated for
the tombstone, `now` the `datetime.now(timezone.utc)` value.  The
try/except is modelled by matching each fallible step; an exception caught
after the tombstone insert leaves the insert in place (the returned DBState
is the state reached so far) and reports deleted=False, archived=False with
an error, exactly as the source's except-branch does.  Note the delete step
reads `doc["original_id"]`: `doc` (after popping _id) never received that
key — the KeyError lands in the except-branch. -/
def archive_delete (db : DBState) (collection_name : String)
    (filter_query : Doc) (mint : Nat) (now : Value) : DBState × ADResult :=
  let queryStep : Option Doc :=
    match dget filter_query "_id" with
    | some (.vStr s) =>
      match parseOid s with
      | some n => some (dset filter_query "_id" (.vOid n))
      | none => none
    | _ => some filter_query
  match queryStep with
  | none =>
    (db, { deleted := false, archived := false, archived_id := none,
           original_id := none, reason := none,
           err := some "InvalidId" })
  | some query =>
    match find_one (db collection_name) query with
    | none =>
      (db, { deleted := false, archived := false, archived_id := none,
             original_id := none, reason := some "Document not found",
             err := none })
    | some doc =>
      match dget doc "_id" with
      | none =>
        (db, { deleted := false, archived := false, archived_id := none,
               original_id := none, reason := none,
               err := some "KeyError: _id" })
      | some original_id =>
        let docPopped := doc.filter (fun kv => kv.1 != "_id")
        let archived_doc := pyUpdate (("_id", .vOid mint) :: docPopped)
          [("original_id", original_id),
           ("original_collection", .vStr collection_name),
           ("deleted_at", now)]
        let db1 := dbInsert db "deletions" archived_doc
        match dget docPopped "original_id" with
        | none =>
          (db1, { deleted := false, archived := false, archived_id := none,
                  original_id := none, reason := none,
                  err := some "KeyError: original_id" })
        | some oid2 =>
          let res := dbDeleteOne db1 collection_name [("_id", oid2)]
          (res.1, { deleted := res.2 == 1, archived := true,
                    archived_id := dget archived_doc "_id",
                    original_id := some original_id, reason := none,
                    err := none })

/-! ### Sync state (load_sync_state / fetch_documents from ops_mongo.py)

Timestamps here are wall-clock datetimes; we model them as
year/month/day/hour/minute/second tuples ordered lexicographically, which
is how datetime objects compare. -/

/-- A datetime value (UTC). -/
structure DT where
  year : Nat
  month : Nat
  day : Nat
  hour : Nat
  minute : Nat
  second : Nat
deriving DecidableEq

/-- Strict chronological order on datetimes. -/
def dtLt (a b : DT) : Bool :=
  if a.year ≠ b.year then a.year < b.year
  else if a.month ≠ b.month then a.month < b.month
  else if a.day ≠ b.day then a.day < b.day
  else if a.hour ≠ b.hour then a.hour < b.hour
  else if a.minute ≠ b.minute then a.minute < b.minute
  else a.second < b.second

/-- One sync_states document: `_id` (the pipeline key) and the optional
last_sync_time field. -/
structure SyncDoc where
  sid : String
  last_sync_time : Option DT
deriving DecidableEq

/-- The default returned when the key is absent (or the stored document
lacks last_sync_time): `datetime(2026, 1, 1, tzinfo=timezone.utc)`. -/
def sync_default_ts : DT := ⟨2026, 1, 1, 0, 0, 0⟩

/-- load_sync_state from ops_mongo.py: the stored last_sync_time for the
key, else the fixed default. -/
def load_sync_state (sync_states : List SyncDoc) (pipeline_id : String) : DT :=
  match sync_states.find? (fun d => d.sid == pipeline_id) with
  | some d =>
    match d.last_sync_time with
    | some t => t
    | none => sync_default_ts
  | none => sync_default_ts

/-- A stored record as seen by the incremental fetch: its identifier and
its optional updated_at stamp. -/
structure TSDoc where
  rid : Nat
  updated_at : Option DT
deriving DecidableEq

/-- fetch_documents from ops_mongo.py, restricted to the query logic the
claim is about: with `since` set, the query gains
`updated_at: {"$gt": since}`, so exactly the documents whose updated_at
strictly exceeds `since` are returned (a document without the field never
matches $gt).  Projection and flattening are identity here: the claim's
call passes no exclusions and an empty field map, under which
flatten_document returns the document unchanged. -/
def fetch_documents (collection : List TSDoc) (since : Option DT) :
    List TSDoc :=
  match since with
  | none => collection
  | some t =>
    collection.filter (fun d =>
      match d.updated_at with
      | some u => dtLt t u
      | none => false)

/-! ### Concrete instances used by the claim theorems and witnesses -/

/-- Two raw records with the same identity field but different content. -/
def c1raw : List Doc :=
  [[("_id", .vOid 1), ("name", .vStr "a"), ("x", .vInt 1)],
   [("_id", .vOid 2), ("name", .vStr "a"), ("x", .vInt 2)]]

/-- A fingerprinted snapshot with one record. -/
def c1wS : List Doc := [[("id_hash", .vStr "h"), ("full_hash", .vStr "f")]]

/-- A stored record for the C2 witness. -/
def c2old : Doc :=
  [("_id", .vOid 1), ("id_hash", .vStr "h"), ("full_hash", .vStr "f1"),
   ("name", .vStr "a")]

/-- Its re-fetched version with changed content. -/
def c2nd : Doc :=
  [("id_hash", .vStr "h"), ("full_hash", .vStr "f2"), ("name", .vStr "b")]

/-- A new-snapshot record that already carries its own _id. -/
def c3nd : Doc := [("_id", .vInt 42), ("id_hash", .vStr "h")]

/-- A new-snapshot record without an _id. -/
def c3w : Doc := [("id_hash", .vStr "h"), ("name", .vStr "b")]

/-- The same record content in two key orders. -/
def c4d1 : Doc := [("b", .vInt 2), ("a", .vInt 1)]

def c4d2 : Doc := [("a", .vInt 1), ("b", .vInt 2)]

/-- A toy pattern: matches exactly the entry "good". -/
def c5pat : String → Option Nat := fun e => if e = "good" then some 7 else none

def c5cfg : SubdocConfig Nat Nat := ⟨some c5pat, Sum.elim id (fun _ => 0)⟩

def c5reg : String → Option (SubdocConfig Nat Nat) :=
  fun k => if k = "f" then some c5cfg else none

/-- A store with one book and an empty deletions collection. -/
def c6db : DBState :=
  fun n => if n = "books" then [[("_id", .vOid 1), ("title", .vStr "T")]]
  else []

/-- The tombstone archive_delete inserts for that book. -/
def c6tomb : Doc :=
  [("_id", .vOid 99), ("title", .vStr "T"), ("original_id", .vOid 1),
   ("original_collection", .vStr "books"), ("deleted_at", .vStr "now")]

/-- A reading entry with a same-timestamp Reading+Read log pair. -/
def c7e : URead := ⟨0, 0, some [⟨5, "Reading"⟩, ⟨5, "Read"⟩], none, none,
  none, none, none⟩

/-- An entry with a recorded zero rating. -/
def c8e0 : URead := ⟨0, 0, none, none, some 0, none, none, none⟩

/-- An entry with rating 4. -/
def c8e4 : URead := ⟨0, 0, none, none, some 4, none, none, none⟩

/-- An entry with no rating and zero/missing rate fields. -/
def c8skip : URead := ⟨0, 0, none, none, none, some 0, some 0, none⟩

/-! ### Dictionary lemmas -/

theorem dget_nil (k : String) : dget [] k = none := rfl

theorem dget_cons (k1 : String) (v : Value) (d : Doc) (k : String) :
    dget ((k1, v) :: d) k = if k1 = k then some v else dget d k := by
  by_cases h : k1 = k <;> simp [dget, List.find?_cons, h]

theorem dget_eq_none_iff {d : Doc} {k : String} :
    dget d k = none ↔ k ∉ dkeys d := by
  induction d with
  | nil => simp [dget, dkeys]
  | cons hd t ih =>
    obtain ⟨k1, v1⟩ := hd
    by_cases h : k1 = k
    · subst h
      simp [dget_cons, dkeys]
    · rw [dget_cons, if_neg h]
      unfold dkeys
      rw [List.map_cons, List.mem_cons]
      constructor
      · intro hn hor
        rcases hor with hor | hor
        · exact h hor.symm
        · exact (ih.mp hn) hor
      · intro hn
        exact ih.mpr (fun hm => hn (Or.inr hm))

theorem dget_some_mem {d : Doc} {k : String} {v : Value}
    (h : dget d k = some v) : (k, v) ∈ d := by
  induction d with
  | nil => simp [dget] at h
  | cons hd t ih =>
    obtain ⟨k1, v1⟩ := hd
    by_cases hk : k1 = k
    · subst hk
      rw [dget_cons, if_pos rfl] at h
      cases h
      exact List.mem_cons_self _ _
    · rw [dget_cons, if_neg hk] at h
      exact List.mem_cons_of_mem _ (ih h)

theorem dget_append (d1 d2 : Doc) (k : String) :
    dget (d1 ++ d2) k = (dget d1 k).or (dget d2 k) := by
  simp only [dget, List.find?_append]
  cases List.find? (fun kv => kv.1 == k) d1 <;> simp

theorem dget_filter (P : String → Bool) (d : Doc) (k : String) :
    dget (d.filter (fun kv => P kv.1)) k =
      if P k then dget d k else none := by
  induction d with
  | nil => simp [dget]
  | cons hd t ih =>
    obtain ⟨k1, v1⟩ := hd
    by_cases h1 : P k1
    · by_cases h2 : k1 = k
      · subst h2
        simp [List.filter_cons, h1, dget_cons, ih]
      · simp [List.filter_cons, h1, dget_cons, h2, ih]
    · by_cases h2 : k1 = k
      · subst h2
        simp [List.filter_cons, h1, dget_cons, ih]
      · simp [List.filter_cons, h1, dget_cons, h2, ih]

theorem dget_map_replace_self (d : Doc) (k : String) (v : Value)
    (h : (dget d k).isSome) :
    dget (d.map (fun kv => if kv.1 == k then (k, v) else kv)) k = some v := by
  induction d with
  | nil => simp [dget] at h
  | cons hd t ih =>
    obtain ⟨k1, v1⟩ := hd
    by_cases h2 : k1 = k
    · subst h2
      simp [dget_cons]
    · have hb : ((k1 == k) : Bool) = false := by simpa using h2
      rw [dget_cons, if_neg h2] at h
      simp only [List.map_cons, hb, Bool.false_eq_true, ite_false]
      rw [dget_cons, if_neg h2]
      exact ih h

theorem dget_map_replace_ne (d : Doc) (k k' : String) (v : Value)
    (h : k' ≠ k) :
    dget (d.map (fun kv => if kv.1 == k then (k, v) else kv)) k' =
      dget d k' := by
  induction d with
  | nil => simp [dget]
  | cons hd t ih =>
    obtain ⟨k1, v1⟩ := hd
    by_cases h2 : k1 = k
    · subst h2
      simp only [List.map_cons, beq_self_eq_true, if_true]
      rw [dget_cons, dget_cons, if_neg (fun he => h he.symm),
        if_neg (fun he => h he.symm)]
      exact ih
    · have hb : ((k1 == k) : Bool) = false := by simpa using h2
      simp only [List.map_cons, hb, Bool.false_eq_true, ite_false]
      by_cases h3 : k1 = k'
      · rw [dget_cons, dget_cons, if_pos h3, if_pos h3]
      · rw [dget_cons, dget_cons, if_neg h3, if_neg h3]
        exact ih

theorem dget_find?_isSome (d : Doc) (k : String) :
    (List.find? (fun kv => kv.1 == k) d).isSome = (dget d k).isSome := by
  simp [dget]

theorem dget_dset_self (d : Doc) (k : String) (v : Value) :
    dget (dset d k v) k = some v := by
  unfold dset
  by_cases h : (List.find? (fun kv => kv.1 == k) d).isSome
  · rw [if_pos h]
    exact dget_map_replace_self d k v (by rwa [dget_find?_isSome] at h)
  · rw [if_neg h]
    rw [dget_append]
    have hn : dget d k = none := by
      rw [dget_find?_isSome] at h
      exact Option.not_isSome_iff_eq_none.mp h
    simp [hn, dget_cons]

theorem dget_dset_ne (d : Doc) (k k' : String) (v : Value) (h : k' ≠ k) :
    dget (dset d k v) k' = dget d k' := by
  unfold dset
  by_cases hs : (List.find? (fun kv => kv.1 == k) d).isSome
  · rw [if_pos hs]
    exact dget_map_replace_ne d k k' v h
  · rw [if_neg hs]
    rw [dget_append]
    have : dget [(k, v)] k' = none := by
      rw [dget_cons, if_neg (fun he => h he.symm), dget_nil]
    rw [this, Option.or_none]

/-! ### Association lists with equal lookups are permutations -/

theorem dget_erase_ne (d : Doc) (x : String × Value) (k : String)
    (h : k ≠ x.1) : dget (d.erase x) k = dget d k := by
  induction d with
  | nil => simp
  | cons hd t ih =>
    by_cases he : hd = x
    · subst he
      rw [List.erase_cons_head]
      obtain ⟨k1, v1⟩ := hd
      rw [dget_cons, if_neg (fun heq => h heq.symm)]
    · rw [List.erase_cons_tail (by simpa using he)]
      obtain ⟨k1, v1⟩ := hd
      by_cases h3 : k1 = k
      · rw [dget_cons, dget_cons, if_pos h3, if_pos h3]
      · rw [dget_cons, dget_cons, if_neg h3, if_neg h3]
        exact ih

theorem nodupKeys_of_sublist {d1 d2 : Doc} (hs : d1.Sublist d2)
    (h : NodupKeys d2) : NodupKeys d1 :=
  List.Nodup.sublist (List.Sublist.map Prod.fst hs) h

theorem perm_cons_erase_pair {x : String × Value} {l : Doc} (h : x ∈ l) :
    l.Perm (x :: l.erase x) := by
  induction l with
  | nil => cases h
  | cons hd t ih =>
    by_cases he : hd = x
    · subst he
      rw [List.erase_cons_head]
    · rw [List.erase_cons_tail (by simpa using he)]
      rcases List.mem_cons.mp h with h2 | h2
      · exact absurd h2.symm he
      · exact (List.Perm.cons hd (ih h2)).trans (List.Perm.swap _ _ _)

theorem perm_of_dget_eq {d1 d2 : Doc} (h1 : NodupKeys d1)
    (h2 : NodupKeys d2) (h : ∀ k, dget d1 k = dget d2 k) : d1.Perm d2 := by
  induction d1 generalizing d2 with
  | nil =>
    cases d2 with
    | nil => exact List.Perm.refl _
    | cons hd t =>
      obtain ⟨k1, v1⟩ := hd
      have := (h k1).symm
      rw [dget_cons, if_pos rfl, dget_nil] at this
      cases this
  | cons hd t ih =>
    obtain ⟨k1, v1⟩ := hd
    have hmem : (k1, v1) ∈ d2 := by
      apply dget_some_mem
      rw [← h k1, dget_cons, if_pos rfl]
    have hperm2 : d2.Perm ((k1, v1) :: d2.erase (k1, v1)) :=
      perm_cons_erase_pair hmem
    have hnod2e : NodupKeys (d2.erase (k1, v1)) :=
      nodupKeys_of_sublist (List.erase_sublist _ _) h2
    have hk1not : k1 ∉ dkeys (d2.erase (k1, v1)) := by
      have : (dkeys d2).Perm (k1 :: dkeys (d2.erase (k1, v1))) := by
        simpa [dkeys] using hperm2.map Prod.fst
      have hnodup : (k1 :: dkeys (d2.erase (k1, v1))).Nodup :=
        this.nodup_iff.mp h2
      exact (List.nodup_cons.mp hnodup).1
    have hk1nott : k1 ∉ dkeys t := by
      have := h1
      unfold NodupKeys dkeys at this
      rw [List.map_cons, List.nodup_cons] at this
      exact this.1
    have hlook : ∀ k, dget t k = dget (d2.erase (k1, v1)) k := by
      intro k
      by_cases hk : k = k1
      · subst hk
        rw [dget_eq_none_iff.mpr hk1nott, dget_eq_none_iff.mpr hk1not]
      · rw [dget_erase_ne _ _ _ hk]
        rw [← h k, dget_cons, if_neg (fun he => hk he.symm)]
    have hnodt : NodupKeys t := by
      have := h1
      unfold NodupKeys dkeys at this ⊢
      rw [List.map_cons, List.nodup_cons] at this
      exact this.2
    have := ih hnodt hnod2e hlook
    exact (List.Perm.cons _ this).trans hperm2.symm

/-! ### The code-point string order is a linear order -/

theorem charListLe_total (as bs : List Char) :
    charListLe as bs = true ∨ charListLe bs as = true := by
  induction as generalizing bs with
  | nil => left; rfl
  | cons a as ih =>
    cases bs with
    | nil => right; rfl
    | cons b bs =>
      by_cases h1 : a < b
      · left
        simp [charListLe, h1]
      · by_cases h2 : b < a
        · right
          simp [charListLe, h2]
        · rcases ih bs with h | h
          · left
            simp [charListLe, h1, h2, h]
          · right
            simp [charListLe, h1, h2, h]

theorem charListLe_trans {as bs cs : List Char}
    (h1 : charListLe as bs = true) (h2 : charListLe bs cs = true) :
    charListLe as cs = true := by
  induction as generalizing bs cs with
  | nil => rfl
  | cons a as ih =>
    cases bs with
    | nil => simp [charListLe] at h1
    | cons b bs =>
      cases cs with
      | nil => simp [charListLe] at h2
      | cons c cs =>
        simp only [charListLe] at h1 h2 ⊢
        by_cases hab : a < b
        · have hac : a < c := by
            by_cases hbc : b < c
            · exact lt_trans hab hbc
            · by_cases hcb : c < b
              · simp [hbc, hcb] at h2
              · have : b = c := le_antisymm (not_lt.mp hcb) (not_lt.mp hbc)
                exact this ▸ hab
          simp [hac]
        · by_cases hba : b < a
          · simp [hab, hba] at h1
          · have heab : a = b := le_antisymm (not_lt.mp hba) (not_lt.mp hab)
            subst heab
            by_cases hac : a < c
            · simp [hac]
            · by_cases hca : c < a
              · simp [hac, hca] at h2
              · rw [if_neg (lt_irrefl a), if_neg (lt_irrefl a)] at h1
                rw [if_neg hac, if_neg hca] at h2
                rw [if_neg hac, if_neg hca]
                exact ih h1 h2

theorem charListLe_antisymm {as bs : List Char}
    (h1 : charListLe as bs = true) (h2 : charListLe bs as = true) :
    as = bs := by
  induction as generalizing bs with
  | nil =>
    cases bs with
    | nil => rfl
    | cons b bs => simp [charListLe] at h2
  | cons a as ih =>
    cases bs with
    | nil => simp [charListLe] at h1
    | cons b bs =>
      simp only [charListLe] at h1 h2
      by_cases hab : a < b
      · simp [lt_asymm hab, hab] at h2
      · by_cases hba : b < a
        · simp [hab, hba] at h1
        · have heab : a = b := le_antisymm (not_lt.mp hba) (not_lt.mp hab)
          subst heab
          simp only [hab, lt_irrefl, ite_false, if_false] at h1 h2
          rw [ih h1 h2]

theorem strLe_total (a b : String) : strLe a b = true ∨ strLe b a = true :=
  charListLe_total a.toList b.toList

theorem strLe_trans {a b c : String} (h1 : strLe a b = true)
    (h2 : strLe b c = true) : strLe a c = true :=
  charListLe_trans h1 h2

theorem strLe_antisymm {a b : String} (h1 : strLe a b = true)
    (h2 : strLe b a = true) : a = b :=
  String.toList_inj.mp (charListLe_antisymm h1 h2)

instance : IsTotal (String × Value) keyle :=
  ⟨fun a b => strLe_total a.1 b.1⟩

instance : IsTrans (String × Value) keyle :=
  ⟨fun _ _ _ => strLe_trans⟩

/-- Strict key order (keys known distinct): used to show sorted forms of a
permutation pair coincide. -/
def keylt (a b : String × Value) : Prop := keyle a b ∧ a.1 ≠ b.1

instance : IsAntisymm (String × Value) keylt :=
  ⟨fun _ _ h1 h2 => absurd (strLe_antisymm h1.1 h2.1) h1.2⟩

theorem sortFields_sorted_strict {l : List (String × Value)}
    (h : NodupKeys l) : List.Sorted keylt (sortFields l) := by
  have hs : List.Sorted keyle (sortFields l) :=
    List.sorted_insertionSort keyle l
  have hperm : (sortFields l).Perm l := List.perm_insertionSort keyle l
  have hnod : NodupKeys (sortFields l) := by
    unfold NodupKeys
    exact ((hperm.map Prod.fst).nodup_iff).mpr h
  have hne : List.Pairwise (fun a b : String × Value => a.1 ≠ b.1)
      (sortFields l) := by
    rw [← List.pairwise_map]
    exact hnod
  exact (hs.and hne).imp (fun hab => ⟨hab.1, hab.2⟩)

theorem sortFields_perm_eq {l1 l2 : List (String × Value)}
    (h1 : NodupKeys l1) (hp : l1.Perm l2) :
    sortFields l1 = sortFields l2 := by
  have h2 : NodupKeys l2 := by
    unfold NodupKeys
    exact ((hp.map Prod.fst).nodup_iff).mp h1
  refine List.eq_of_perm_of_sorted ?_ (sortFields_sorted_strict h1)
    (sortFields_sorted_strict h2)
  exact ((List.perm_insertionSort keyle l1).trans hp).trans
    (List.perm_insertionSort keyle l2).symm

/-! ### Hash stability -/

theorem canonFields_eq_map (fs : List (String × Value)) :
    canonFields fs = fs.map (fun kv => (kv.1, canonValue kv.2)) := by
  induction fs with
  | nil => rfl
  | cons hd t ih =>
    obtain ⟨k, v⟩ := hd
    rw [canonFields, ih]
    rfl

theorem hash_doc_congr {f1 f2 : Doc} (h1 : NodupKeys f1) (h2 : NodupKeys f2)
    (h : ∀ k, dget f1 k = dget f2 k) : hash_doc f1 = hash_doc f2 := by
  have hperm : f1.Perm f2 := perm_of_dget_eq h1 h2 h
  have hcperm : (canonFields f1).Perm (canonFields f2) := by
    rw [canonFields_eq_map, canonFields_eq_map]
    exact hperm.map _
  have hcnod : NodupKeys (canonFields f1) := by
    unfold NodupKeys dkeys
    rw [canonFields_eq_map]
    have : (f1.map (fun kv => (kv.1, canonValue kv.2))).map Prod.fst =
        f1.map Prod.fst := by
      rw [List.map_map]
      rfl
    rw [this]
    exact h1
  unfold hash_doc
  rw [canonValue]
  rw [canonValue]
  rw [sortFields_perm_eq hcnod hcperm]

/-! ### find_deltas loop lemmas -/

theorem stepOld_deleted {lk : List (Value × Doc)} {st : DeltaState} {d : Doc}
    {h : Value} (h1 : dget d "id_hash" = some h)
    (h2 : lookupLast lk h = none) :
    stepOld lk st d = some { st with ddeleted := st.ddeleted ++ [d] } := by
  simp only [stepOld, h1, h2]

theorem stepOld_unchanged {lk : List (Value × Doc)} {st : DeltaState}
    {d nd : Doc} {h : Value} (h1 : dget d "id_hash" = some h)
    (h2 : lookupLast lk h = some nd)
    (h3 : pyGet d "full_hash" = pyGet nd "full_hash") :
    stepOld lk st d =
      some { st with
              matched := st.matched ++ [h],
              dunchanged := st.dunchanged ++ [d] } := by
  simp only [stepOld, h1, h2]
  rw [if_pos h3]

theorem stepOld_updated {lk : List (Value × Doc)} {st : DeltaState}
    {d nd : Doc} {h oid : Value} (h1 : dget d "id_hash" = some h)
    (h2 : lookupLast lk h = some nd)
    (h3 : pyGet d "full_hash" ≠ pyGet nd "full_hash")
    (h4 : dget d "_id" = some oid) :
    stepOld lk st d =
      some { st with
              matched := st.matched ++ [h],
              to_upsert := st.to_upsert ++
                [("_id", oid) :: nd.filter (fun kv => kv.1 != "_id")],
              dupdated := st.dupdated ++
                [[("_id", oid), ("id_hash", h),
                  ("changes", .vObj (computeChanges d nd))]] } := by
  simp only [stepOld, h1, h2, h4]
  rw [if_neg h3]

theorem stepNew_skip {st : DeltaState} {d : Doc} {h : Value}
    (h1 : dget d "id_hash" = some h) (h2 : h ∈ st.matched) :
    stepNew st d = some st := by
  simp only [stepNew, h1]
  rw [if_pos h2]

theorem stepNew_mint {st : DeltaState} {d : Doc} {h : Value}
    (h1 : dget d "id_hash" = some h) (h2 : h ∉ st.matched) :
    stepNew st d =
      some { st with
              to_upsert := st.to_upsert ++
                [("_id", (dget d "_id").getD (.vOid st.counter)) ::
                  d.filter (fun kv => kv.1 != "_id")],
              dnew := st.dnew ++
                [("_id", (dget d "_id").getD (.vOid st.counter)) ::
                  d.filter (fun kv => kv.1 != "_id")],
              counter := st.counter + 1 } := by
  simp only [stepNew, h1]
  rw [if_neg h2]

theorem stepOld_none_hash {lk : List (Value × Doc)} {st : DeltaState}
    {d : Doc} (h1 : dget d "id_hash" = none) : stepOld lk st d = none := by
  simp only [stepOld, h1]

theorem stepOld_none_id {lk : List (Value × Doc)} {st : DeltaState}
    {d nd : Doc} {h : Value} (h1 : dget d "id_hash" = some h)
    (h2 : lookupLast lk h = some nd)
    (h3 : pyGet d "full_hash" ≠ pyGet nd "full_hash")
    (h4 : dget d "_id" = none) : stepOld lk st d = none := by
  simp only [stepOld, h1, h2, h4]
  rw [if_neg h3]

theorem stepNew_none_hash {st : DeltaState} {d : Doc}
    (h1 : dget d "id_hash" = none) : stepNew st d = none := by
  simp only [stepNew, h1]

theorem stepOld_spec {lk : List (Value × Doc)} {st st' : DeltaState}
    {d : Doc} (h : stepOld lk st d = some st') :
    (∃ a, st'.to_upsert = st.to_upsert ++ a) ∧ st'.dnew = st.dnew ∧
    (∃ a, st'.dupdated = st.dupdated ++ a) ∧
    (∃ a, st'.dunchanged = st.dunchanged ++ a) ∧
    (∃ a, st'.ddeleted = st.ddeleted ++ a) ∧
    (st'.matched = st.matched ∨
      ∃ hh, st'.matched = st.matched ++ [hh] ∧
        dget d "id_hash" = some hh) ∧
    st'.counter = st.counter := by
  cases h1 : dget d "id_hash" with
  | none => rw [stepOld_none_hash h1] at h; cases h
  | some hh =>
    cases h2 : lookupLast lk hh with
    | none =>
      rw [stepOld_deleted h1 h2] at h
      cases h
      exact ⟨⟨[], by simp⟩, rfl, ⟨[], by simp⟩, ⟨[], by simp⟩,
        ⟨[d], rfl⟩, Or.inl rfl, rfl⟩
    | some nd =>
      by_cases h3 : pyGet d "full_hash" = pyGet nd "full_hash"
      · rw [stepOld_unchanged h1 h2 h3] at h
        cases h
        exact ⟨⟨[], by simp⟩, rfl, ⟨[], by simp⟩, ⟨[d], rfl⟩,
          ⟨[], by simp⟩, Or.inr ⟨hh, rfl, rfl⟩, rfl⟩
      · cases h4 : dget d "_id" with
        | none => rw [stepOld_none_id h1 h2 h3 h4] at h; cases h
        | some oid =>
          rw [stepOld_updated h1 h2 h3 h4] at h
          cases h
          exact ⟨⟨_, rfl⟩, rfl, ⟨_, rfl⟩, ⟨[], by simp⟩,
            ⟨[], by simp⟩, Or.inr ⟨hh, rfl, rfl⟩, rfl⟩

theorem stepNew_spec {st st' : DeltaState} {d : Doc}
    (h : stepNew st d = some st') :
    (∃ a, st'.to_upsert = st.to_upsert ++ a ∧ st'.dnew = st.dnew ++ a) ∧
    st'.dupdated = st.dupdated ∧ st'.dunchanged = st.dunchanged ∧
    st'.ddeleted = st.ddeleted ∧ st'.matched = st.matched ∧
    st.counter ≤ st'.counter := by
  cases h1 : dget d "id_hash" with
  | none => rw [stepNew_none_hash h1] at h; cases h
  | some hh =>
    by_cases h2 : hh ∈ st.matched
    · rw [stepNew_skip h1 h2] at h
      cases h
      exact ⟨⟨[], by simp, by simp⟩, rfl, rfl, rfl, rfl, le_refl _⟩
    · rw [stepNew_mint h1 h2] at h
      cases h
      exact ⟨⟨_, rfl, rfl⟩, rfl, rfl, rfl, rfl, Nat.le_succ _⟩

theorem foldlM_cons_decomp {α : Type} {f : DeltaState → α → Option DeltaState}
    {l : List α} {a : α} {st st' : DeltaState}
    (h : (a :: l).foldlM f st = some st') :
    ∃ st1, f st a = some st1 ∧ l.foldlM f st1 = some st' := by
  rw [List.foldlM_cons] at h
  cases hfa : f st a with
  | none => rw [hfa] at h; cases h
  | some st1 =>
    rw [hfa] at h
    exact ⟨st1, rfl, h⟩

theorem foldlM_append_decomp {α : Type}
    {f : DeltaState → α → Option DeltaState} {l1 l2 : List α}
    {st st' : DeltaState} (h : (l1 ++ l2).foldlM f st = some st') :
    ∃ stm, l1.foldlM f st = some stm ∧ l2.foldlM f stm = some st' := by
  rw [List.foldlM_append] at h
  cases hfa : l1.foldlM f st with
  | none => rw [hfa] at h; cases h
  | some stm =>
    rw [hfa] at h
    exact ⟨stm, rfl, h⟩

theorem foldOld_spec {lk : List (Value × Doc)} {olds : List Doc}
    {st st' : DeltaState} (h : olds.foldlM (stepOld lk) st = some st') :
    (∃ a, st'.to_upsert = st.to_upsert ++ a) ∧ st'.dnew = st.dnew ∧
    (∃ a, st'.dupdated = st.dupdated ++ a) ∧
    (∃ a, st'.dunchanged = st.dunchanged ++ a) ∧
    (∃ a, st'.ddeleted = st.ddeleted ++ a) ∧
    (∃ m, st'.matched = st.matched ++ m ∧
      ∀ x ∈ m, ∃ od ∈ olds, dget od "id_hash" = some x) ∧
    st'.counter = st.counter := by
  induction olds generalizing st with
  | nil =>
    cases h
    exact ⟨⟨[], by simp⟩, rfl, ⟨[], by simp⟩, ⟨[], by simp⟩, ⟨[], by simp⟩,
      ⟨[], by simp⟩, rfl⟩
  | cons a l ih =>
    obtain ⟨st1, hfa, hrest⟩ := foldlM_cons_decomp h
    obtain ⟨⟨u1, hu1⟩, hn1, ⟨p1, hp1⟩, ⟨c1, hc1⟩, ⟨e1, he1⟩, hm1, hcnt1⟩ :=
      stepOld_spec hfa
    obtain ⟨⟨u2, hu2⟩, hn2, ⟨p2, hp2⟩, ⟨c2, hc2⟩, ⟨e2, he2⟩,
      ⟨m2, hm2, hm2w⟩, hcnt2⟩ := ih hrest
    refine ⟨⟨u1 ++ u2, by rw [hu2, hu1, List.append_assoc]⟩,
      by rw [hn2, hn1],
      ⟨p1 ++ p2, by rw [hp2, hp1, List.append_assoc]⟩,
      ⟨c1 ++ c2, by rw [hc2, hc1, List.append_assoc]⟩,
      ⟨e1 ++ e2, by rw [he2, he1, List.append_assoc]⟩,
      ?_, by rw [hcnt2, hcnt1]⟩
    rcases hm1 with hm1 | ⟨hh, hm1, hm1h⟩
    · exact ⟨m2, by rw [hm2, hm1], fun x hx =>
        (hm2w x hx).imp (fun od ⟨hod, hh⟩ => ⟨List.mem_cons_of_mem _ hod, hh⟩)⟩
    · refine ⟨[hh] ++ m2, by rw [hm2, hm1, List.append_assoc], ?_⟩
      intro x hx
      rcases List.mem_append.mp hx with hx | hx
      · rw [List.mem_singleton.mp hx]
        exact ⟨a, List.mem_cons_self _ _, hm1h⟩
      · exact (hm2w x hx).imp
          (fun od ⟨hod, hh2⟩ => ⟨List.mem_cons_of_mem _ hod, hh2⟩)

theorem foldNew_spec {news : List Doc} {st st' : DeltaState}
    (h : news.foldlM stepNew st = some st') :
    (∃ a, st'.to_upsert = st.to_upsert ++ a) ∧
    (∃ a, st'.dnew = st.dnew ++ a) ∧
    st'.dupdated = st.dupdated ∧ st'.dunchanged = st.dunchanged ∧
    st'.ddeleted = st.ddeleted ∧ st'.matched = st.matched ∧
    st.counter ≤ st'.counter := by
  induction news generalizing st with
  | nil =>
    cases h
    exact ⟨⟨[], by simp⟩, ⟨[], by simp⟩, rfl, rfl, rfl, rfl, le_refl _⟩
  | cons a l ih =>
    obtain ⟨st1, hfa, hrest⟩ := foldlM_cons_decomp h
    obtain ⟨⟨u1, hu1, hn1⟩, hp1, hc1, he1, hm1, hcnt1⟩ := stepNew_spec hfa
    obtain ⟨⟨u2, hu2⟩, ⟨n2, hn2⟩, hp2, hc2, he2, hm2, hcnt2⟩ := ih hrest
    exact ⟨⟨u1 ++ u2, by rw [hu2, hu1, List.append_assoc]⟩,
      ⟨u1 ++ n2, by rw [hn2, hn1, List.append_assoc]⟩,
      by rw [hp2, hp1], by rw [hc2, hc1], by rw [he2, he1],
      by rw [hm2, hm1], le_trans hcnt1 hcnt2⟩

theorem find_deltas_decomp {old_documents new_documents : List Doc}
    {counter0 : Nat} {r : List Doc × DeltaDiff}
    (h : find_deltas old_documents new_documents counter0 = some r) :
    ∃ lk st1 st2, new_lookup new_documents = some lk ∧
      old_documents.foldlM (stepOld lk) (initState counter0) = some st1 ∧
      new_documents.foldlM stepNew st1 = some st2 ∧
      r = (st2.to_upsert,
        ⟨st2.dnew, st2.dupdated, st2.dunchanged, st2.ddeleted⟩) := by
  unfold find_deltas at h
  cases hlk : new_lookup new_documents with
  | none => rw [hlk] at h; cases h
  | some lk =>
    rw [hlk] at h
    simp only [Option.bind_eq_bind, Option.some_bind, Option.bind_eq_some] at h
    obtain ⟨st1, h1, st2, h2, h3⟩ := h
    cases h3
    exact ⟨lk, st1, st2, rfl, h1, h2, rfl⟩

theorem lookupLast_nodup {l : List (Value × Doc)} {h : Value} {d : Doc}
    (hnod : (l.map Prod.fst).Nodup) (hmem : (h, d) ∈ l) :
    lookupLast l h = some d := by
  induction l with
  | nil => cases hmem
  | cons x t ih =>
    rw [List.map_cons, List.nodup_cons] at hnod
    unfold lookupLast
    rw [List.reverse_cons, List.find?_append]
    rcases List.mem_cons.mp hmem with hx | hx
    · subst hx
      have hnone : t.reverse.find? (fun p => decide (p.1 = h)) = none := by
        rw [List.find?_eq_none]
        intro y hy
        simp only [decide_eq_true_eq]
        intro he
        have hyin : y.1 ∈ t.map Prod.fst :=
          List.mem_map_of_mem Prod.fst (List.mem_reverse.mp hy)
        rw [he] at hyin
        exact hnod.1 hyin
      rw [hnone]
      simp [List.find?]
    · have hrec := ih hnod.2 hx
      unfold lookupLast at hrec
      cases hf : t.reverse.find? (fun p => decide (p.1 = h)) with
      | none => rw [hf] at hrec; cases hrec
      | some q =>
        rw [hf] at hrec
        have hq : q.2 = d := by
          simpa using hrec
        simp [hf, hq]

theorem new_lookup_map {S : List Doc} {hs : Doc → Value}
    (H : ∀ d ∈ S, dget d "id_hash" = some (hs d)) :
    new_lookup S = some (S.map (fun d => (hs d, d))) := by
  induction S with
  | nil => rfl
  | cons d t ih =>
    have hd := H d (List.mem_cons_self _ _)
    have ht := ih (fun x hx => H x (List.mem_cons_of_mem _ hx))
    simp only [new_lookup] at ht ⊢
    rw [List.mapM_cons, hd]
    simp only [Option.map_some, Option.bind_eq_bind, Option.some_bind]
    rw [ht]
    simp

theorem foldOld_all_unchanged {lk : List (Value × Doc)} {T : List Doc}
    {st : DeltaState}
    (H : ∀ d ∈ T, ∃ h, dget d "id_hash" = some h ∧ lookupLast lk h = some d) :
    ∃ st', T.foldlM (stepOld lk) st = some st' ∧
      st'.to_upsert = st.to_upsert ∧ st'.dnew = st.dnew ∧
      st'.dupdated = st.dupdated ∧
      st'.dunchanged = st.dunchanged ++ T ∧
      st'.ddeleted = st.ddeleted ∧ st'.counter = st.counter ∧
      (∀ x ∈ st.matched, x ∈ st'.matched) ∧
      (∀ d ∈ T, ∀ h, dget d "id_hash" = some h → h ∈ st'.matched) := by
  induction T generalizing st with
  | nil =>
    exact ⟨st, rfl, rfl, rfl, rfl, by simp, rfl, rfl, fun x hx => hx,
      fun d hd => absurd hd (List.not_mem_nil d)⟩
  | cons d t ih =>
    obtain ⟨h, hh, hlook⟩ := H d (List.mem_cons_self _ _)
    have hstep := @stepOld_unchanged lk st d d h hh hlook rfl
    obtain ⟨st', hfold, hu, hn, hp, hc, he, hcnt, hm, hmh⟩ :=
      @ih { st with
              matched := st.matched ++ [h],
              dunchanged := st.dunchanged ++ [d] }
        (fun x hx => H x (List.mem_cons_of_mem _ hx))
    refine ⟨st', ?_, hu, hn, hp, ?_, he, hcnt, ?_, ?_⟩
    · rw [List.foldlM_cons, hstep]
      exact hfold
    · rw [hc]
      simp
    · intro x hx
      exact hm x (List.mem_append_left _ hx)
    · intro d2 hd2 h2 hh2
      rcases List.mem_cons.mp hd2 with hd2 | hd2
      · subst hd2
        rw [hh] at hh2
        cases hh2
        exact hm h (List.mem_append_right _ (List.mem_singleton_self _))
      · exact hmh d2 hd2 h2 hh2

theorem foldNew_all_skip {T : List Doc} {st : DeltaState}
    (H : ∀ d ∈ T, ∃ h, dget d "id_hash" = some h ∧ h ∈ st.matched) :
    T.foldlM stepNew st = some st := by
  induction T with
  | nil => rfl
  | cons d t ih =>
    obtain ⟨h, hh, hmem⟩ := H d (List.mem_cons_self _ _)
    rw [List.foldlM_cons, stepNew_skip hh hmem]
    exact ih (fun x hx => H x (List.mem_cons_of_mem _ hx))

/-! ### Lexicographic maximum lemmas -/

/-- Non-strict lexicographic order on (timestamp, priority) keys. -/
def lexLeB (a b : Nat × Int) : Bool :=
  a.1 < b.1 || (a.1 == b.1 && a.2 ≤ b.2)

theorem lexLeB_refl (a : Nat × Int) : lexLeB a a = true := by
  simp [lexLeB]

theorem lexLeB_trans {a b c : Nat × Int} (h1 : lexLeB a b = true)
    (h2 : lexLeB b c = true) : lexLeB a c = true := by
  simp only [lexLeB, Bool.or_eq_true, Bool.and_eq_true, decide_eq_true_eq,
    beq_iff_eq] at h1 h2 ⊢
  omega

theorem lexLeB_of_keyLtB {a b : Nat × Int} (h : keyLtB a b = true) :
    lexLeB a b = true := by
  simp only [keyLtB, lexLeB, Bool.or_eq_true, Bool.and_eq_true,
    decide_eq_true_eq, beq_iff_eq] at h ⊢
  omega

theorem lexLeB_of_not_keyLtB {a b : Nat × Int} (h : keyLtB a b = false) :
    lexLeB b a = true := by
  simp only [keyLtB, lexLeB, Bool.or_eq_true, Bool.and_eq_true,
    Bool.or_eq_false_iff, Bool.and_eq_false_iff, decide_eq_true_eq,
    decide_eq_false_iff_not, beq_iff_eq, beq_eq_false_iff_ne] at h ⊢
  omega

theorem pyMaxBy_spec {α : Type} (key : α → Nat × Int) (x0 : α)
    (rest : List α) :
    pyMaxBy key keyLtB x0 rest ∈ x0 :: rest ∧
    ∀ e ∈ x0 :: rest,
      lexLeB (key e) (key (pyMaxBy key keyLtB x0 rest)) = true := by
  induction rest generalizing x0 with
  | nil =>
    refine ⟨List.mem_singleton_self _, ?_⟩
    intro e he
    rw [List.mem_singleton.mp he]
    exact lexLeB_refl _
  | cons y ys ih =>
    have hstep : pyMaxBy key keyLtB x0 (y :: ys) =
        pyMaxBy key keyLtB (if keyLtB (key x0) (key y) then y else x0) ys := by
      simp [pyMaxBy]
    set m1 := if keyLtB (key x0) (key y) then y else x0 with hm1
    obtain ⟨ihmem, ihbound⟩ := ih m1
    have hm1mem : m1 ∈ [x0, y] := by
      rw [hm1]
      by_cases hk : keyLtB (key x0) (key y) = true
      · rw [if_pos hk]; simp
      · rw [if_neg hk]; simp
    have hx0le : lexLeB (key x0) (key m1) = true := by
      rw [hm1]
      by_cases hk : keyLtB (key x0) (key y) = true
      · rw [if_pos hk]; exact lexLeB_of_keyLtB hk
      · rw [if_neg hk]; exact lexLeB_refl _
    have hyle : lexLeB (key y) (key m1) = true := by
      rw [hm1]
      by_cases hk : keyLtB (key x0) (key y) = true
      · rw [if_pos hk]; exact lexLeB_refl _
      · rw [if_neg hk]
        exact lexLeB_of_not_keyLtB (Bool.eq_false_iff.mpr hk)
    constructor
    · rw [hstep]
      rcases List.mem_cons.mp ihmem with hm | hm
      · rw [hm]
        rcases List.mem_cons.mp hm1mem with hh | hh
        · rw [hh]; exact List.mem_cons_self _ _
        · rw [List.mem_singleton.mp hh]
          exact List.mem_cons_of_mem _ (List.mem_cons_self _ _)
      · exact List.mem_cons_of_mem _ (List.mem_cons_of_mem _ hm)
    · intro e he
      rw [hstep]
      rcases List.mem_cons.mp he with he | he
      · subst he
        exact lexLeB_trans hx0le (ihbound m1 (List.mem_cons_self _ _))
      · rcases List.mem_cons.mp he with he | he
        · subst he
          exact lexLeB_trans hyle (ihbound m1 (List.mem_cons_self _ _))
        · exact ihbound e (List.mem_cons_of_mem _ he)

/-! ### agg_entries projections and Option.mapM helpers -/

theorem agg_avg_rating (u v : Nat) (entries : List URead) :
    (agg_entries u v entries).avg_rating =
      (if (entries.filterMap (fun e => e.rating)).isEmpty then none
       else some ((entries.filterMap (fun e => e.rating)).sum /
         (entries.filterMap (fun e => e.rating)).length)) := rfl

theorem agg_avg_days (u v : Nat) (entries : List URead) :
    (agg_entries u v entries).avg_days_to_read =
      (if (entries.filterMap (fun e => truthyQ e.days_to_read)).isEmpty
       then none
       else some ((entries.filterMap (fun e => truthyQ e.days_to_read)).sum /
         (entries.filterMap (fun e => truthyQ e.days_to_read)).length)) := rfl

theorem agg_avg_rate (u v : Nat) (entries : List URead) :
    (agg_entries u v entries).avg_read_rate =
      (if (entries.filterMap rateOf).isEmpty then none
       else some ((entries.filterMap rateOf).sum /
         (entries.filterMap rateOf).length)) := rfl

theorem agg_rstatus_of_logs {entries : List URead} {l0 : RLog}
    {rest : List RLog} (u v : Nat) (h : flatLogs entries = l0 :: rest) :
    (agg_entries u v entries).most_recent_rstatus =
      (pyMaxBy rlogKey keyLtB l0 rest).rstatus := by
  unfold agg_entries
  rw [h]

theorem mapM_isSome_iff {α β : Type} (f : α → Option β) (l : List α) :
    (l.mapM f).isSome ↔ ∀ a ∈ l, (f a).isSome := by
  induction l with
  | nil =>
    rw [show List.mapM f [] = some [] from rfl]
    simp
  | cons a t ih =>
    cases hfa : f a with
    | none =>
      have hL : (a :: t).mapM f = none := by
        rw [List.mapM_cons, hfa]
        rfl
      rw [hL]
      simp only [Option.isSome_none, Bool.false_eq_true, false_iff]
      intro hall
      have := hall a (List.mem_cons_self _ _)
      rw [hfa] at this
      cases this
    | some b =>
      have hL : (a :: t).mapM f = (t.mapM f).map (fun bs => b :: bs) := by
        rw [List.mapM_cons, hfa]
        cases t.mapM f <;> rfl
      rw [hL]
      constructor
      · intro hs x hx
        rcases List.mem_cons.mp hx with hx | hx
        · rw [hx, hfa]; rfl
        · refine (ih.mp ?_) x hx
          cases hmt : t.mapM f with
          | none => rw [hmt] at hs; cases hs
          | some bs => rfl
      · intro hall
        have hts : (t.mapM f).isSome :=
          ih.mpr (fun x hx => hall x (List.mem_cons_of_mem _ hx))
        cases hmt : t.mapM f with
        | none => rw [hmt] at hts; cases hts
        | some bs => rfl

theorem mapM_some_spec {α β : Type} {f : α → Option β} {l : List α}
    {res : List β} (h : l.mapM f = some res) :
    res.length = l.length ∧ ∀ b ∈ res, ∃ a ∈ l, f a = some b := by
  induction l generalizing res with
  | nil =>
    cases h
    exact ⟨rfl, by simp⟩
  | cons a t ih =>
    rw [List.mapM_cons] at h
    cases hfa : f a with
    | none => rw [hfa] at h; cases h
    | some b =>
      rw [hfa] at h
      cases hft : t.mapM f with
      | none => rw [hft] at h; cases h
      | some bs =>
        rw [hft] at h
        simp only [Option.bind_eq_bind, Option.some_bind, Option.pure_def,
          Option.some.injEq] at h
        subst h
        obtain ⟨hlen, hmem⟩ := ih hft
        refine ⟨by simp [hlen], ?_⟩
        intro x hx
        rcases List.mem_cons.mp hx with hx | hx
        · exact ⟨a, List.mem_cons_self _ _, hx ▸ hfa⟩
        · obtain ⟨a2, ha2, hfa2⟩ := hmem x hx
          exact ⟨a2, List.mem_cons_of_mem _ ha2, hfa2⟩

theorem identity_data_isSome_iff (doc_full : Doc) (id_fields : List String) :
    (identity_data_of doc_full id_fields).isSome ↔
      ∀ k ∈ id_fields, (dget doc_full k).isSome := by
  unfold identity_data_of
  rw [mapM_isSome_iff]
  constructor <;> intro h k hk <;> have := h k hk
  · cases hdg : dget doc_full k with
    | none => rw [hdg] at this; cases this
    | some v => rfl
  · cases hdg : dget doc_full k with
    | none => rw [hdg] at this; cases this
    | some v => rfl

theorem identity_data_congr {f1 f2 : Doc} (h : ∀ k, dget f1 k = dget f2 k)
    (id_fields : List String) :
    identity_data_of f1 id_fields = identity_data_of f2 id_fields := by
  unfold identity_data_of
  induction id_fields with
  | nil => rfl
  | cons k t ih => rw [List.mapM_cons, List.mapM_cons, h k, ih]

theorem add_hashes_one_decomp {doc : Doc} {id_fields : List String} {md : Doc}
    (h : add_hashes_one doc id_fields = some md) :
    ∃ idd, identity_data_of (full_data_of doc) id_fields = some idd ∧
      md = dset (dset doc "full_hash" (hash_doc (full_data_of doc)))
        "id_hash" (hash_doc idd) := by
  simp only [add_hashes_one] at h
  cases hid : identity_data_of (full_data_of doc) id_fields with
  | none => rw [hid] at h; cases h
  | some idd =>
    rw [hid] at h
    simp only [Option.bind_eq_bind, Option.some_bind, Option.some.injEq] at h
    exact ⟨idd, rfl, h.symm⟩

theorem add_hashes_one_isSome_iff (doc : Doc) (id_fields : List String) :
    (add_hashes_one doc id_fields).isSome ↔
      ∀ k ∈ id_fields, (dget (full_data_of doc) k).isSome := by
  rw [← identity_data_isSome_iff]
  simp only [add_hashes_one]
  cases hid : identity_data_of (full_data_of doc) id_fields with
  | none => simp
  | some idd => simp

theorem add_hashes_one_fields {doc : Doc} {id_fields : List String} {md : Doc}
    (h : add_hashes_one doc id_fields = some md) :
    (dget md "id_hash").isSome ∧ (dget md "full_hash").isSome := by
  obtain ⟨idd, hid, hmd⟩ := add_hashes_one_decomp h
  subst hmd
  constructor
  · rw [dget_dset_self]; rfl
  · rw [dget_dset_ne _ _ _ _ (by decide), dget_dset_self]; rfl

theorem add_hashes_decomp {documents : List Doc} {id_fields : List String}
    {res : List Doc × List Value × List Value}
    (h : add_hashes documents id_fields = some res) :
    ∃ mod_docs ihs fhs,
      documents.mapM (fun doc => add_hashes_one doc id_fields) =
        some mod_docs ∧
      mod_docs.mapM (fun d => dget d "id_hash") = some ihs ∧
      mod_docs.mapM (fun d => dget d "full_hash") = some fhs ∧
      res = (mod_docs, ihs, fhs) := by
  unfold add_hashes at h
  cases h1 : documents.mapM (fun doc => add_hashes_one doc id_fields) with
  | none => rw [h1] at h; cases h
  | some mod_docs =>
    rw [h1] at h
    simp only [Option.bind_eq_bind, Option.some_bind] at h
    cases h2 : mod_docs.mapM (fun d => dget d "id_hash") with
    | none => rw [h2] at h; cases h
    | some ihs =>
      rw [h2] at h
      simp only [Option.some_bind] at h
      cases h3 : mod_docs.mapM (fun d => dget d "full_hash") with
      | none => rw [h3] at h; cases h
      | some fhs =>
        rw [h3] at h
        simp only [Option.some_bind, Option.some.injEq] at h
        exact ⟨mod_docs, ihs, fhs, rfl, h2, h3, h.symm⟩

theorem add_hashes_isSome_iff (documents : List Doc)
    (id_fields : List String) :
    (add_hashes documents id_fields).isSome ↔
      ∀ doc ∈ documents, ∀ k ∈ id_fields,
        (dget (full_data_of doc) k).isSome := by
  constructor
  · intro h
    obtain ⟨res, hres⟩ := Option.isSome_iff_exists.mp h
    obtain ⟨mod_docs, ihs, fhs, h1, _, _, _⟩ := add_hashes_decomp hres
    intro doc hdoc
    rw [← add_hashes_one_isSome_iff]
    exact (mapM_isSome_iff _ _).mp (by rw [h1]; rfl) doc hdoc
  · intro h
    have h1 : (documents.mapM
        (fun doc => add_hashes_one doc id_fields)).isSome := by
      rw [mapM_isSome_iff]
      intro doc hdoc
      rw [add_hashes_one_isSome_iff]
      exact h doc hdoc
    obtain ⟨mod_docs, hmd⟩ := Option.isSome_iff_exists.mp h1
    have hfields : ∀ d ∈ mod_docs,
        (dget d "id_hash").isSome ∧ (dget d "full_hash").isSome := by
      intro d hd
      obtain ⟨a, ha, hfa⟩ := (mapM_some_spec hmd).2 d hd
      exact add_hashes_one_fields hfa
    have h2 : (mod_docs.mapM (fun d => dget d "id_hash")).isSome := by
      rw [mapM_isSome_iff]
      exact fun d hd => (hfields d hd).1
    have h3 : (mod_docs.mapM (fun d => dget d "full_hash")).isSome := by
      rw [mapM_isSome_iff]
      exact fun d hd => (hfields d hd).2
    obtain ⟨ihs, hihs⟩ := Option.isSome_iff_exists.mp h2
    obtain ⟨fhs, hfhs⟩ := Option.isSome_iff_exists.mp h3
    unfold add_hashes
    rw [hmd]
    simp only [Option.bind_eq_bind, Option.some_bind]
    rw [hihs]
    simp only [Option.some_bind]
    rw [hfhs]
    rfl

theorem find_deltas_singleton_unchanged {d1 d2 : Doc} {h : Value}
    (hid1 : dget d1 "id_hash" = some h) (hid2 : dget d2 "id_hash" = some h)
    (hfh : pyGet d1 "full_hash" = pyGet d2 "full_hash") (c0 : Nat) :
    find_deltas [d1] [d2] c0 = some ([], ⟨[], [], [d1], []⟩) := by
  have hlk : new_lookup [d2] = some [(h, d2)] := by
    have := @new_lookup_map [d2] (fun _ => h)
      (by intro d hd; rw [List.mem_singleton.mp hd]; exact hid2)
    simpa using this
  have hlook : lookupLast [(h, d2)] h = some d2 :=
    lookupLast_nodup (by simp) (by simp)
  set stU : DeltaState :=
    { initState c0 with
        matched := (initState c0).matched ++ [h],
        dunchanged := (initState c0).dunchanged ++ [d1] } with hstU
  have hstep : stepOld [(h, d2)] (initState c0) d1 = some stU :=
    stepOld_unchanged hid1 hlook hfh
  have hskip : stepNew stU d2 = some stU :=
    stepNew_skip hid2 (by rw [hstU]; simp [initState])
  have hfold1 : List.foldlM (stepOld [(h, d2)]) (initState c0) [d1] =
      some stU := by
    rw [List.foldlM_cons, hstep]
    rfl
  have hfold2 : List.foldlM stepNew stU [d2] = some stU := by
    rw [List.foldlM_cons, hskip]
    rfl
  unfold find_deltas
  rw [hlk]
  simp only [Option.bind_eq_bind, Option.some_bind]
  rw [hfold1]
  simp only [Option.some_bind]
  rw [hfold2]
  simp only [Option.some_bind]
  rfl

/-! ### Claim theorems -/

/-- C1 counterexample: a snapshot fingerprinted by add_hashes whose two
records share the identity field (equal id_hash) but differ in content:
classifying (S, S) puts one record in `updated` (and one document in
to_upsert) instead of leaving `new`, `updated`, `deleted` empty with every
record unchanged — refuting the claim for arbitrary fingerprinted
snapshots. -/
theorem c1_counterexample_duplicate_identity :
    ((add_hashes c1raw ["name"]).map (fun t =>
      (find_deltas t.1 t.1 0).map (fun r =>
        (r.2.dupdated.length, r.2.dnew.length, r.2.ddeleted.length,
         r.2.dunchanged.length, r.1.length)))) =
      some (some (1, 0, 0, 1, 1)) := by decide

/-- C1 (amended): for every snapshot S of fingerprinted records whose
identity hashes are pairwise distinct, find_deltas (S, S) yields empty
new, updated and deleted buckets, puts every record of S (in order) in
unchanged, and produces an empty to_upsert list. -/
theorem c1_self_classification_idempotent (S : List Doc) (hs : Doc → Value)
    (c0 : Nat) (H1 : ∀ d ∈ S, dget d "id_hash" = some (hs d))
    (H2 : (S.map hs).Nodup) :
    find_deltas S S c0 = some ([], ⟨[], [], S, []⟩) := by
  have hlk := new_lookup_map H1
  have hnodfst : ((S.map (fun d => (hs d, d))).map Prod.fst).Nodup := by
    rw [List.map_map]
    exact H2
  have hlook : ∀ d ∈ S,
      lookupLast (S.map (fun d => (hs d, d))) (hs d) = some d := by
    intro d hd
    exact lookupLast_nodup hnodfst (List.mem_map_of_mem _ hd)
  obtain ⟨st1, hfold, hu, hn, hp, hc, he, hcnt, hm, hmh⟩ :=
    @foldOld_all_unchanged (S.map fun d => (hs d, d)) S (initState c0)
      (fun d hd => ⟨hs d, H1 d hd, hlook d hd⟩)
  have hskip : S.foldlM stepNew st1 = some st1 :=
    foldNew_all_skip (fun d hd =>
      ⟨hs d, H1 d hd, hmh d hd (hs d) (H1 d hd)⟩)
  unfold find_deltas
  rw [hlk]
  simp only [Option.bind_eq_bind, Option.some_bind]
  rw [hfold]
  simp only [Option.some_bind]
  rw [hskip]
  simp only [Option.some_bind]
  rw [hu, hn, hp, hc, he]
  simp [initState]

/-- C1 witness: a one-record fingerprinted snapshot; classifying it
against itself leaves everything unchanged and upserts nothing. -/
theorem c1_witness :
    (∀ d ∈ c1wS, dget d "id_hash" = some (Value.vStr "h")) ∧
    (c1wS.map (fun _ => Value.vStr "h")).Nodup ∧
    find_deltas c1wS c1wS 0 = some ([], ⟨[], [], c1wS, []⟩) :=
  ⟨by decide, by decide,
    c1_self_classification_idempotent c1wS (fun _ => Value.vStr "h") 0
      (by decide) (by decide)⟩

/-- C2: every stored record whose identity hash finds a match in the new
snapshot with a different content hash contributes to to_upsert exactly
the document made of the old record's _id followed by the new record's
non-_id fields (no fresh identifier), and the diff.updated entry carries
that same original _id. -/
theorem c2_updated_identity_stability
    (old_documents new_documents : List Doc) (counter0 : Nat)
    (up : List Doc) (df : DeltaDiff)
    (hrun : find_deltas old_documents new_documents counter0 = some (up, df))
    (old_doc nd : Doc) (h oid : Value) (lk : List (Value × Doc))
    (hmem : old_doc ∈ old_documents)
    (hh : dget old_doc "id_hash" = some h)
    (hlk : new_lookup new_documents = some lk)
    (hlook : lookupLast lk h = some nd)
    (hfh : pyGet old_doc "full_hash" ≠ pyGet nd "full_hash")
    (hid : dget old_doc "_id" = some oid) :
    (("_id", oid) :: nd.filter (fun kv => kv.1 != "_id")) ∈ up ∧
    [("_id", oid), ("id_hash", h),
      ("changes", .vObj (computeChanges old_doc nd))] ∈ df.dupdated := by
  obtain ⟨lk2, st1, st2, hlk2, hf1, hf2, hr⟩ := find_deltas_decomp hrun
  rw [hlk] at hlk2
  have hlkeq := Option.some.inj hlk2
  subst hlkeq
  obtain ⟨pre, post, hsplit⟩ := List.append_of_mem hmem
  subst hsplit
  obtain ⟨stA, hfpre, hfrest⟩ := foldlM_append_decomp hf1
  obtain ⟨stB, hstep, hfpost⟩ := foldlM_cons_decomp hfrest
  rw [stepOld_updated hh hlook hfh hid] at hstep
  cases hstep
  rw [Prod.mk.injEq] at hr
  obtain ⟨hup, hdf⟩ := hr
  subst hup
  subst hdf
  obtain ⟨⟨a1, ha1⟩, _, ⟨a2, ha2⟩, _, _, _, _⟩ := foldOld_spec hfpost
  obtain ⟨⟨a3, ha3⟩, _, hupd2, _, _, _, _⟩ := foldNew_spec hf2
  constructor
  · rw [ha3, ha1]
    apply List.mem_append_left
    apply List.mem_append_left
    exact List.mem_append_right _ (List.mem_singleton_self _)
  · rw [hupd2, ha2]
    apply List.mem_append_left
    exact List.mem_append_right _ (List.mem_singleton_self _)

/-- C2 witness: one stored record, one changed re-fetch with the same
identity hash; the upserted document keeps the old _id with the new
fields, and the diff.updated entry carries the old _id. -/
theorem c2_witness :
    ∃ up df, find_deltas [c2old] [c2nd] 0 = some (up, df) ∧
      (("_id", Value.vOid 1) :: c2nd.filter (fun kv => kv.1 != "_id")) ∈ up ∧
      [("_id", Value.vOid 1), ("id_hash", Value.vStr "h"),
        ("changes", .vObj (computeChanges c2old c2nd))] ∈ df.dupdated := by
  have hrun : (find_deltas [c2old] [c2nd] 0).isSome := by decide
  obtain ⟨⟨up, df⟩, hr⟩ := Option.isSome_iff_exists.mp hrun
  refine ⟨up, df, hr, ?_⟩
  exact c2_updated_identity_stability [c2old] [c2nd] 0 up df hr c2old c2nd
    (Value.vStr "h") (Value.vOid 1) [(Value.vStr "h", c2nd)]
    (by decide) (by decide) (by decide) (by decide) (by decide) (by decide)

/-- C3 counterexample: a new-snapshot record that already carries an _id:
the entry appended to to_upsert and diff.new keeps that _id (42), because
in `{"_id": ObjectId(), **new_doc}` the record's own _id overwrites the
minted ObjectId — so no fresh system identifier is carried, refuting the
claim for records that arrive with an _id. -/
theorem c3_counterexample_existing_id :
    find_deltas [] [c3nd] 0 = some ([c3nd], ⟨[c3nd], [], [], []⟩) ∧
    dget c3nd "_id" = some (Value.vInt 42) ∧
    Value.vInt 42 ≠ Value.vOid 0 := by decide

/-- C3 (amended): every new-snapshot record whose identity hash matches no
stored record and which does NOT itself carry an _id is appended to
to_upsert and diff.new with a freshly minted system identifier — the next
ObjectId in the mint sequence (vOid m for some m at or past the mint
counter). -/
theorem c3_new_record_fresh_identifier
    (old_documents new_documents : List Doc) (counter0 : Nat)
    (up : List Doc) (df : DeltaDiff)
    (hrun : find_deltas old_documents new_documents counter0 = some (up, df))
    (nd : Doc) (h : Value)
    (hmem : nd ∈ new_documents)
    (hh : dget nd "id_hash" = some h)
    (hnotold : ∀ od ∈ old_documents, ∀ h2,
      dget od "id_hash" = some h2 → h2 ≠ h)
    (hnoid : dget nd "_id" = none) :
    ∃ m, counter0 ≤ m ∧
      (("_id", Value.vOid m) :: nd.filter (fun kv => kv.1 != "_id")) ∈ up ∧
      (("_id", Value.vOid m) :: nd.filter (fun kv => kv.1 != "_id")) ∈
        df.dnew := by
  obtain ⟨lk, st1, st2, hlk, hf1, hf2, hr⟩ := find_deltas_decomp hrun
  obtain ⟨_, _, _, _, _, ⟨mm, hmm, hmmw⟩, hcnt1⟩ := foldOld_spec hf1
  have hnotm : h ∉ st1.matched := by
    rw [hmm]
    intro hin
    rw [show (initState counter0).matched = [] from rfl,
      List.nil_append] at hin
    obtain ⟨od, hod, hodh⟩ := hmmw h hin
    exact hnotold od hod h hodh rfl
  obtain ⟨pre, post, hsplit⟩ := List.append_of_mem hmem
  subst hsplit
  obtain ⟨stA, hfpre, hfrest⟩ := foldlM_append_decomp hf2
  obtain ⟨stB, hstep, hfpost⟩ := foldlM_cons_decomp hfrest
  obtain ⟨_, _, _, _, _, hmA, hcntA⟩ := foldNew_spec hfpre
  have hnotmA : h ∉ stA.matched := by
    rw [hmA]
    exact hnotm
  rw [stepNew_mint hh hnotmA] at hstep
  cases hstep
  rw [Prod.mk.injEq] at hr
  obtain ⟨hup, hdf⟩ := hr
  subst hup
  subst hdf
  refine ⟨stA.counter, ?_, ?_, ?_⟩
  · have h0 : (initState counter0).counter = counter0 := rfl
    rw [hcnt1, h0] at hcntA
    exact hcntA
  · obtain ⟨⟨a3, ha3⟩, _, _, _, _, _, _⟩ := foldNew_spec hfpost
    rw [ha3]
    apply List.mem_append_left
    rw [hnoid]
    exact List.mem_append_right _ (List.mem_singleton_self _)
  · obtain ⟨_, ⟨a4, ha4⟩, _, _, _, _, _⟩ := foldNew_spec hfpost
    rw [ha4]
    apply List.mem_append_left
    rw [hnoid]
    exact List.mem_append_right _ (List.mem_singleton_self _)

/-- C3 witness: one new record without an _id against an empty stored
snapshot; the emitted entry carries a minted ObjectId. -/
theorem c3_witness :
    ∃ up df, find_deltas [] [c3w] 0 = some (up, df) ∧
      ∃ m, 0 ≤ m ∧
        (("_id", Value.vOid m) :: c3w.filter (fun kv => kv.1 != "_id")) ∈
          up ∧
        (("_id", Value.vOid m) :: c3w.filter (fun kv => kv.1 != "_id")) ∈
          df.dnew := by
  have hrun : (find_deltas [] [c3w] 0).isSome := by decide
  obtain ⟨⟨up, df⟩, hr⟩ := Option.isSome_iff_exists.mp hrun
  refine ⟨up, df, hr, ?_⟩
  exact c3_new_record_fresh_identifier [] [c3w] 0 up df hr c3w
    (Value.vStr "h") (by decide) (by decide)
    (by intro od hod; cases hod) (by decide)

/-- C4: the content and identity hashes attached by add_hashes depend only
on the record's fields outside _id, full_hash, id_hash and updated_at: two
records equal as key-value maps after excluding those fields get equal
full_hash and id_hash regardless of key insertion order, the hash columns
of add_hashes coincide, and classifying the re-submitted reordered record
against the stored one yields `unchanged` with nothing to upsert. -/
theorem c4_hash_stability (d1 d2 : Doc) (id_fields : List String)
    (h1 : NodupKeys d1) (h2 : NodupKeys d2)
    (h : ∀ k, k ∉ ignore_keys → dget d1 k = dget d2 k) :
    hash_doc (full_data_of d1) = hash_doc (full_data_of d2) ∧
    identity_data_of (full_data_of d1) id_fields =
      identity_data_of (full_data_of d2) id_fields ∧
    (∀ m1 hashes1, add_hashes [d1] id_fields = some (m1, hashes1) →
      ∃ m2, add_hashes [d2] id_fields = some (m2, hashes1) ∧
        ∀ c0, find_deltas m1 m2 c0 = some ([], ⟨[], [], m1, []⟩)) := by
  have hfull : ∀ k, dget (full_data_of d1) k = dget (full_data_of d2) k := by
    intro k
    unfold full_data_of
    rw [dget_filter (fun s => decide (s ∉ ignore_keys)),
      dget_filter (fun s => decide (s ∉ ignore_keys))]
    by_cases hk : k ∈ ignore_keys
    · simp [hk]
    · rw [if_pos (decide_eq_true hk), if_pos (decide_eq_true hk)]
      exact h k hk
  have hnodf1 : NodupKeys (full_data_of d1) :=
    nodupKeys_of_sublist (List.filter_sublist _) h1
  have hnodf2 : NodupKeys (full_data_of d2) :=
    nodupKeys_of_sublist (List.filter_sublist _) h2
  have hhash : hash_doc (full_data_of d1) = hash_doc (full_data_of d2) :=
    hash_doc_congr hnodf1 hnodf2 hfull
  have hident : identity_data_of (full_data_of d1) id_fields =
      identity_data_of (full_data_of d2) id_fields :=
    identity_data_congr hfull id_fields
  refine ⟨hhash, hident, ?_⟩
  intro m1 hashes1 hadd1
  obtain ⟨mod_docs, ihs, fhs, hmm, hih, hfh, heq⟩ := add_hashes_decomp hadd1
  rw [Prod.mk.injEq] at heq
  obtain ⟨hm1, hhs1⟩ := heq
  subst hm1
  subst hhs1
  -- the singleton mapM gives the single fingerprinted document
  rw [List.mapM_cons] at hmm
  cases hone : add_hashes_one d1 id_fields with
  | none => rw [hone] at hmm; cases hmm
  | some md1 =>
    rw [hone] at hmm
    simp only [Option.bind_eq_bind, Option.some_bind] at hmm
    rw [show List.mapM (fun doc => add_hashes_one doc id_fields)
      ([] : List Doc) = some [] from rfl] at hmm
    simp only [Option.some_bind, Option.pure_def, Option.some.injEq] at hmm
    subst hmm
    obtain ⟨idd1, hidd1, hmd1⟩ := add_hashes_one_decomp hone
    -- the fingerprinted twin of d2
    have hidd2 : identity_data_of (full_data_of d2) id_fields = some idd1 :=
      hident ▸ hidd1
    have hone2 : add_hashes_one d2 id_fields =
        some (dset (dset d2 "full_hash" (hash_doc (full_data_of d1)))
          "id_hash" (hash_doc idd1)) := by
      simp only [add_hashes_one]
      rw [hidd2, hhash]
      rfl
    set md2 := dset (dset d2 "full_hash" (hash_doc (full_data_of d1)))
      "id_hash" (hash_doc idd1) with hmd2
    have hid1get : dget md1 "id_hash" = some (hash_doc idd1) := by
      rw [hmd1, dget_dset_self]
    have hfh1get : dget md1 "full_hash" =
        some (hash_doc (full_data_of d1)) := by
      rw [hmd1, dget_dset_ne _ _ _ _ (by decide), dget_dset_self]
    have hid2get : dget md2 "id_hash" = some (hash_doc idd1) := by
      rw [hmd2, dget_dset_self]
    have hfh2get : dget md2 "full_hash" =
        some (hash_doc (full_data_of d1)) := by
      rw [hmd2, dget_dset_ne _ _ _ _ (by decide), dget_dset_self]
    -- the hash columns of the first call
    have hihs : ihs = [hash_doc idd1] := by
      rw [List.mapM_cons, hid1get] at hih
      simp only [Option.bind_eq_bind, Option.some_bind] at hih
      rw [show List.mapM (fun d : Doc => dget d "id_hash")
        ([] : List Doc) = some [] from rfl] at hih
      simp only [Option.some_bind, Option.pure_def,
        Option.some.injEq] at hih
      exact hih.symm
    have hfhs : fhs = [hash_doc (full_data_of d1)] := by
      rw [List.mapM_cons, hfh1get] at hfh
      simp only [Option.bind_eq_bind, Option.some_bind] at hfh
      rw [show List.mapM (fun d : Doc => dget d "full_hash")
        ([] : List Doc) = some [] from rfl] at hfh
      simp only [Option.some_bind, Option.pure_def,
        Option.some.injEq] at hfh
      exact hfh.symm
    subst hihs
    subst hfhs
    refine ⟨[md2], ?_, ?_⟩
    · have hmap2 : List.mapM (fun doc => add_hashes_one doc id_fields)
          [d2] = some [md2] := by
        rw [List.mapM_cons, hone2]
        rfl
      have hihm2 : List.mapM (fun d : Doc => dget d "id_hash") [md2] =
          some [hash_doc idd1] := by
        rw [List.mapM_cons, hid2get]
        rfl
      have hfhm2 : List.mapM (fun d : Doc => dget d "full_hash") [md2] =
          some [hash_doc (full_data_of d1)] := by
        rw [List.mapM_cons, hfh2get]
        rfl
      unfold add_hashes
      rw [hmap2]
      simp only [Option.bind_eq_bind, Option.some_bind]
      rw [hihm2]
      simp only [Option.some_bind]
      rw [hfhm2]
      rfl
    · intro c0
      apply find_deltas_singleton_unchanged hid1get hid2get
      unfold pyGet
      rw [hfh1get, hfh2get]

/-- C4 witness: the same two fields submitted in the two opposite key
orders hash identically and classify as unchanged. -/
theorem c4_witness :
    NodupKeys c4d1 ∧ NodupKeys c4d2 ∧
    (∀ k, k ∉ ignore_keys → dget c4d1 k = dget c4d2 k) ∧
    hash_doc (full_data_of c4d1) = hash_doc (full_data_of c4d2) ∧
    ∃ m1 hashes1, add_hashes [c4d1] ["a"] = some (m1, hashes1) ∧
      ∃ m2, add_hashes [c4d2] ["a"] = some (m2, hashes1) ∧
        find_deltas m1 m2 0 = some ([], ⟨[], [], m1, []⟩) := by
  have hlookups : ∀ k, k ∉ ignore_keys → dget c4d1 k = dget c4d2 k := by
    intro k hk
    by_cases ha : k = "a"
    · subst ha; decide
    · by_cases hb : k = "b"
      · subst hb; decide
      · have h1n : dget c4d1 k = none :=
          dget_eq_none_iff.mpr (by simp [c4d1, dkeys, ha, hb])
        have h2n : dget c4d2 k = none :=
          dget_eq_none_iff.mpr (by simp [c4d2, dkeys, ha, hb])
        rw [h1n, h2n]
  have hmain := c4_hash_stability c4d1 c4d2 ["a"]
    (by unfold NodupKeys; decide) (by unfold NodupKeys; decide) hlookups
  have hrun : (add_hashes [c4d1] ["a"]).isSome := by decide
  obtain ⟨⟨m1, hashes1⟩, hr⟩ := Option.isSome_iff_exists.mp hrun
  obtain ⟨m2, hadd2, hfd⟩ := hmain.2.2 m1 hashes1 hr
  exact ⟨by unfold NodupKeys; decide, by unfold NodupKeys; decide,
    hlookups, hmain.1, m1, hashes1, hr, m2, hadd2, hfd 0⟩

/-- C5: for every registry entry with a pattern and every input string,
make_subdocuments splits on the separator, trims entries, discards empties,
decodes exactly the entries the pattern matches and skips each
non-matching entry (the embedding is total, so no exception escapes); in
particular a string with one well-formed and one malformed entry returns
exactly the one decoded record. -/
theorem c5_make_subdocuments_tolerance {M R : Type}
    (registry : String → Option (SubdocConfig M R)) (field_key : String)
    (config : SubdocConfig M R) (p : String → Option M)
    (hcfg : registry field_key = some config) (hp : config.pattern = some p) :
    (∀ string separator,
      make_subdocuments string field_key registry separator =
        (subdocEntries string separator).filterMap
          (fun entry => (p entry).map (fun m => config.transform (Sum.inl m)))) ∧
    (∀ string separator e1 e2 m, subdocEntries string separator = [e1, e2] →
      p e1 = some m → p e2 = none →
      make_subdocuments string field_key registry separator =
        [config.transform (Sum.inl m)]) := by
  have hmain : ∀ string separator,
      make_subdocuments string field_key registry separator =
        (subdocEntries string separator).filterMap
          (fun entry => (p entry).map (fun m => config.transform (Sum.inl m))) := by
    intro s sep
    by_cases hs : s = ""
    · subst hs
      have hent : subdocEntries "" sep = [] := rfl
      rw [hent]
      simp [make_subdocuments]
    · simp only [make_subdocuments]
      rw [if_neg hs]
      simp only [hcfg, hp]
  refine ⟨hmain, fun s sep e1 e2 m hent hp1 hp2 => ?_⟩
  rw [hmain s sep, hent]
  simp [hp1, hp2]

/-- C5 witness: a registry entry for "f" whose pattern accepts exactly
"good"; decoding " good ; bad " yields exactly one decoded record. -/
theorem c5_witness :
    c5reg "f" = some c5cfg ∧ c5cfg.pattern = some c5pat ∧
    subdocEntries " good ; bad " ';' = ["good", "bad"] ∧
    c5pat "good" = some 7 ∧ c5pat "bad" = none ∧
    make_subdocuments " good ; bad " "f" c5reg ';' =
      [c5cfg.transform (Sum.inl 7)] :=
  ⟨rfl, rfl, by decide, rfl, rfl,
    (c5_make_subdocuments_tolerance c5reg "f" c5cfg c5pat rfl rfl).2
      " good ; bad " ';' "good" "bad" 7 (by decide) rfl rfl⟩

/-- C6 (code bug): archive_delete on an existing matched record inserts the
tombstone (carrying original_id, original_collection, deleted_at) but then
reads `doc["original_id"]`, a key the popped document never received, so
the delete step raises KeyError into the except-branch: the source record
is never deleted and the returned flags say deleted=False and
archived=False even though the tombstone was inserted — contradicting the
claimed archive-then-delete contract and the function's own docstring. -/
theorem c6_archive_delete_unreachable_delete :
    (archive_delete c6db "books" [("_id", .vOid 1)] 99 (.vStr "now")).2 =
      ⟨false, false, none, none, none, some "KeyError: original_id"⟩ ∧
    (archive_delete c6db "books" [("_id", .vOid 1)] 99
      (.vStr "now")).1 "deletions" = [c6tomb] ∧
    (archive_delete c6db "books" [("_id", .vOid 1)] 99
      (.vStr "now")).1 "books" =
      [[("_id", .vOid 1), ("title", .vStr "T")]] ∧
    dget c6tomb "original_id" = some (.vOid 1) ∧
    dget c6tomb "original_collection" = some (.vStr "books") ∧
    dget c6tomb "deleted_at" = some (.vStr "now") := by decide

/-- C7: the most-recent status of a group is the status of a maximum of
its flattened log entries under the lexicographic (timestamp,
status-priority) order with Read > Reading > Paused > To-Read; every
process_ur output row is the aggregation of its (user, version) group; and
a same-timestamp Reading+Read pair aggregates to "Read" in either entry
order. -/
theorem c7_reading_status_tiebreak :
    (∀ ur a, a ∈ process_ur ur →
      a = agg_entries a.user_id a.version_id
        (ur.filter (fun e => e.user_id == a.user_id &&
          e.version_id == a.version_id))) ∧
    (∀ u v entries l0 rest, flatLogs entries = l0 :: rest →
      ∃ m ∈ flatLogs entries,
        (agg_entries u v entries).most_recent_rstatus = m.rstatus ∧
        ∀ e ∈ flatLogs entries, lexLeB (rlogKey e) (rlogKey m) = true) ∧
    (∀ u v t e0, e0.reading_log = some [⟨t, "Reading"⟩, ⟨t, "Read"⟩] →
      (agg_entries u v [e0]).most_recent_rstatus = "Read") ∧
    (∀ u v t e0, e0.reading_log = some [⟨t, "Read"⟩, ⟨t, "Reading"⟩] →
      (agg_entries u v [e0]).most_recent_rstatus = "Read") := by
  refine ⟨?_, ?_, ?_, ?_⟩
  · intro ur a ha
    unfold process_ur at ha
    rw [List.mem_flatMap] at ha
    obtain ⟨u, hu, ha⟩ := ha
    rw [List.mem_filterMap] at ha
    obtain ⟨v, hv, hif⟩ := ha
    by_cases he : (ur.filter (fun e => e.user_id == u &&
        e.version_id == v)).isEmpty
    · rw [if_pos he] at hif
      cases hif
    · rw [if_neg he] at hif
      have ha := Option.some.inj hif
      subst ha
      rfl
  · intro u v entries l0 rest h
    obtain ⟨hmem, hbound⟩ := pyMaxBy_spec rlogKey l0 rest
    refine ⟨pyMaxBy rlogKey keyLtB l0 rest, ?_, ?_, ?_⟩
    · rw [h]
      exact hmem
    · exact agg_rstatus_of_logs u v h
    · intro e he
      rw [h] at he
      exact hbound e he
  · intro u v t e0 hlog
    have hfl : flatLogs [e0] = [⟨t, "Reading"⟩, ⟨t, "Read"⟩] := by
      simp [flatLogs, hlog]
    rw [agg_rstatus_of_logs u v hfl]
    simp [pyMaxBy, keyLtB, rlogKey, rstatus_priority]
  · intro u v t e0 hlog
    have hfl : flatLogs [e0] = [⟨t, "Read"⟩, ⟨t, "Reading"⟩] := by
      simp [flatLogs, hlog]
    rw [agg_rstatus_of_logs u v hfl]
    simp [pyMaxBy, keyLtB, rlogKey, rstatus_priority]

/-- C7 witness: a single entry whose log holds a same-timestamp
Reading+Read pair; the aggregate's most-recent status is Read. -/
theorem c7_witness :
    flatLogs [c7e] = [⟨5, "Reading"⟩, ⟨5, "Read"⟩] ∧
    (∃ m ∈ flatLogs [c7e],
      (agg_entries 0 0 [c7e]).most_recent_rstatus = m.rstatus ∧
      ∀ e ∈ flatLogs [c7e], lexLeB (rlogKey e) (rlogKey m) = true) ∧
    c7e.reading_log = some [⟨5, "Reading"⟩, ⟨5, "Read"⟩] ∧
    (agg_entries 0 0 [c7e]).most_recent_rstatus = "Read" :=
  ⟨by decide,
    c7_reading_status_tiebreak.2.1 0 0 [c7e] ⟨5, "Reading"⟩ [⟨5, "Read"⟩]
      (by decide),
    by decide,
    c7_reading_status_tiebreak.2.2.1 0 0 5 c7e (by decide)⟩

/-- C8 counterexample: two entries with ratings 0 and 4; the aggregate
avg_rating is 2, so a recorded zero rating is counted in both numerator
and denominator, contradicting the claim that zero values are excluded
from avg_rating (which would give 4). -/
theorem c8_counterexample_zero_rating :
    (agg_entries 0 0 [c8e0, c8e4]).avg_rating = some 2 ∧
    some (2 : ℚ) ≠ some (4 : ℚ) := by
  constructor
  · rw [agg_avg_rating, show List.filterMap (fun e => e.rating)
      [c8e0, c8e4] = [(0 : ℚ), 4] from rfl]
    simp [List.sum_cons, List.sum_nil]
    norm_num
  · intro hcontra
    rw [Option.some.injEq] at hcontra
    norm_num at hcontra

/-- C8 (amended): avg_days_to_read and avg_read_rate are computed only
over entries whose field is present and non-zero (adding an entry whose
value is missing or zero changes neither numerator nor denominator), and
each average is null when no entry qualifies; avg_rating however skips
only missing (None) ratings — a recorded zero rating is included. -/
theorem c8_average_skipping :
    (∀ u v entries e, e.rating = none →
      (agg_entries u v (entries ++ [e])).avg_rating =
        (agg_entries u v entries).avg_rating) ∧
    (∀ u v entries e, e.days_to_read = none ∨ e.days_to_read = some 0 →
      (agg_entries u v (entries ++ [e])).avg_days_to_read =
        (agg_entries u v entries).avg_days_to_read) ∧
    (∀ u v entries e,
      (e.pages_per_day = none ∨ e.pages_per_day = some 0) ∧
      (e.hours_per_day = none ∨ e.hours_per_day = some 0) →
      (agg_entries u v (entries ++ [e])).avg_read_rate =
        (agg_entries u v entries).avg_read_rate) ∧
    (∀ u v entries, (∀ e ∈ entries, e.rating = none) →
      (agg_entries u v entries).avg_rating = none) ∧
    (∀ u v entries,
      (∀ e ∈ entries, e.days_to_read = none ∨ e.days_to_read = some 0) →
      (agg_entries u v entries).avg_days_to_read = none) ∧
    (∀ u v entries,
      (∀ e ∈ entries, (e.pages_per_day = none ∨ e.pages_per_day = some 0) ∧
        (e.hours_per_day = none ∨ e.hours_per_day = some 0)) →
      (agg_entries u v entries).avg_read_rate = none) := by
  have htruthy : ∀ o : Option ℚ, o = none ∨ o = some 0 → truthyQ o = none := by
    rintro o (ho | ho) <;> simp [truthyQ, ho]
  have hrate : ∀ e : URead,
      (e.pages_per_day = none ∨ e.pages_per_day = some 0) ∧
      (e.hours_per_day = none ∨ e.hours_per_day = some 0) →
      rateOf e = none := by
    rintro e ⟨hp, hh⟩
    unfold rateOf
    rw [htruthy _ hp, htruthy _ hh]
  refine ⟨?_, ?_, ?_, ?_, ?_, ?_⟩
  · intro u v entries e he
    rw [agg_avg_rating, agg_avg_rating, List.filterMap_append]
    rw [show List.filterMap (fun x : URead => x.rating) [e] = [] from by
      simp [he]]
    simp
  · intro u v entries e he
    rw [agg_avg_days, agg_avg_days, List.filterMap_append]
    rw [show List.filterMap (fun x : URead => truthyQ x.days_to_read) [e] =
      [] from by simp [htruthy _ he]]
    simp
  · intro u v entries e he
    rw [agg_avg_rate, agg_avg_rate, List.filterMap_append]
    rw [show List.filterMap rateOf [e] = [] from by simp [hrate e he]]
    simp
  · intro u v entries hall
    rw [agg_avg_rating, if_pos]
    rw [List.isEmpty_iff, List.filterMap_eq_nil_iff]
    exact hall
  · intro u v entries hall
    rw [agg_avg_days, if_pos]
    rw [List.isEmpty_iff, List.filterMap_eq_nil_iff]
    exact fun e he => htruthy _ (hall e he)
  · intro u v entries hall
    rw [agg_avg_rate, if_pos]
    rw [List.isEmpty_iff, List.filterMap_eq_nil_iff]
    exact fun e he => hrate e (hall e he)

/-- C8 witness: appending an entry with no rating and zero rates leaves
avg_rating unchanged; a group whose only entry has no rating and zero
rates has null avg_rating and null avg_read_rate. -/
theorem c8_witness :
    c8skip.rating = none ∧
    (agg_entries 0 0 ([c8e4] ++ [c8skip])).avg_rating =
      (agg_entries 0 0 [c8e4]).avg_rating ∧
    (∀ e ∈ [c8skip], e.rating = none) ∧
    (agg_entries 0 0 [c8skip]).avg_rating = none ∧
    (agg_entries 0 0 [c8skip]).avg_read_rate = none :=
  ⟨rfl, c8_average_skipping.1 0 0 [c8e4] c8skip rfl, by decide,
    c8_average_skipping.2.2.2.1 0 0 [c8skip] (by decide),
    c8_average_skipping.2.2.2.2.2 0 0 [c8skip] (by decide)⟩

/-- C9 (code bug): load_sync_state defaults to datetime(2026, 1, 1) when
the key is absent — not a sentinel preceding every possible record
timestamp: a record stamped 2025-06-01 strictly precedes it, so the first
run's incremental fetch (updated_at > default) misses that record instead
of performing a full sync.  The present-key branch does return the stored
last_sync_time. -/
theorem c9_sync_default_not_epoch :
    load_sync_state [] "etl_staging" = ⟨2026, 1, 1, 0, 0, 0⟩ ∧
    dtLt ⟨2025, 6, 1, 0, 0, 0⟩ ⟨2026, 1, 1, 0, 0, 0⟩ = true ∧
    fetch_documents [⟨7, some ⟨2025, 6, 1, 0, 0, 0⟩⟩]
      (some (load_sync_state [] "etl_staging")) = [] ∧
    load_sync_state [⟨"etl_staging", some ⟨2026, 3, 1, 0, 0, 0⟩⟩]
      "etl_staging" = ⟨2026, 3, 1, 0, 0, 0⟩ := by decide

/-- C10 counterexample: the record has the identity field "_id" present,
yet add_hashes raises (returns no output), because identity fields are
looked up in full_data, which excludes _id, full_hash, id_hash and
updated_at — refuting "add_hashes never raises when every identity field
is present in every record". -/
theorem c10_counterexample_ignored_id_field :
    ("_id" ∈ dkeys [("_id", Value.vInt 1)]) ∧
    add_hashes [[("_id", Value.vInt 1)]] ["_id"] = none := by decide

/-- C10 (amended): add_hashes succeeds exactly when every identity field
is present in every record outside the ignored bookkeeping keys (_id,
full_hash, id_hash, updated_at) — in particular a record lacking an
identity field makes the whole call raise with no output — and on success
returns one fingerprinted record per input record. -/
theorem c10_add_hashes_totality (documents : List Doc)
    (id_fields : List String) :
    ((add_hashes documents id_fields).isSome ↔
      ∀ doc ∈ documents, ∀ k ∈ id_fields,
        (dget (full_data_of doc) k).isSome) ∧
    ∀ res, add_hashes documents id_fields = some res →
      res.1.length = documents.length := by
  refine ⟨add_hashes_isSome_iff documents id_fields, ?_⟩
  intro res hres
  obtain ⟨mod_docs, ihs, fhs, h1, _, _, hres2⟩ := add_hashes_decomp hres
  subst hres2
  exact (mapM_some_spec h1).1

/-- C10 witness: with identity field "name" present, add_hashes succeeds
and returns one record for one input. -/
theorem c10_witness :
    (∀ doc ∈ [[("name", Value.vStr "a")]], ∀ k ∈ ["name"],
      (dget (full_data_of doc) k).isSome) ∧
    (add_hashes [[("name", Value.vStr "a")]] ["name"]).isSome ∧
    ∀ res, add_hashes [[("name", Value.vStr "a")]] ["name"] = some res →
      res.1.length = 1 :=
  ⟨by decide,
    (c10_add_hashes_totality [[("name", Value.vStr "a")]] ["name"]).1.mpr
      (by decide),
    fun res h =>
      (c10_add_hashes_totality [[("name", Value.vStr "a")]] ["name"]).2 res h⟩

end Storied
